import Mathlib

/-!
Verification development for the GitHub language-analysis data-collection
pipeline (`src/mlProject`): a rate-limited HTTP client (`GitHubClient`),
a release time-spacing sampler (`get_releases`), a per-release language
matrix builder, and an incremental collection store
(`RepositoriesAnalytics`) with CSV persistence.

Modelling conventions:
* Python floats are modelled as exact rationals (`ℚ`); machine rounding
  below that granularity is out of scope.
* Release timestamps are modelled at day granularity as integers
  (`Date := Int`); ISO-8601 strings of a common format compare
  lexicographically exactly as their dates compare, and `timedelta.days`
  between two day-granularity datetimes is their integer difference.
* A Python exception is an `Except` error value (`PyError`).
* JSON `null` in a release's `published_at` field is modelled as `none`;
  the GitHub API schema always includes the key itself on release objects.
* Python string helpers (`split`, `strip`, `in`, `int(...)`) are
  re-implemented on `List Char` by structural recursion so that all
  definitions evaluate inside the kernel.
-/

attribute [local semireducible] Rat.mul Rat.add Rat.sub Rat.inv

/-- Errors raised by the modelled Python code. -/
inductive PyError where
  | zeroDivision
  | typeError
  | valueError
  | keyError
  | http (status : ℕ)
deriving DecidableEq, Repr

instance {ε α : Type} [DecidableEq ε] [DecidableEq α] : DecidableEq (Except ε α) := fun x y =>
  match x, y with
  | .error e, .error f =>
    if h : e = f then isTrue (by rw [h]) else isFalse (fun hh => h (Except.error.inj hh))
  | .error _, .ok _ => isFalse (fun hh => Except.noConfusion hh)
  | .ok _, .error _ => isFalse (fun hh => Except.noConfusion hh)
  | .ok a, .ok b =>
    if h : a = b then isTrue (by rw [h]) else isFalse (fun hh => h (Except.ok.inj hh))

/-- Dates at day granularity (days since an arbitrary epoch). -/
abbrev Date := Int

/-- Python `int(q)` on a float: truncation toward zero. -/
def pyTrunc (q : ℚ) : ℤ := if q < 0 then ⌈q⌉ else ⌊q⌋

/-- Round half to even (the tie rule of Python `round`). -/
def roundHalfEven (q : ℚ) : ℤ :=
  let f := ⌊q⌋
  if q - f < 1/2 then f
  else if 1/2 < q - f then f + 1
  else if f % 2 = 0 then f else f + 1

/-- Python `round(q, 4)`. -/
def pyRound4 (q : ℚ) : ℚ := (roundHalfEven (q * 10000) : ℚ) / 10000

/-- Python `min(l, key)` for a nonempty list: the first element attaining
the minimal key wins ties. `min` raises `ValueError` on an empty list, so
the empty case yields `none`. -/
def pyMinBy {α β : Type} [LinearOrder β] (key : α → β) : List α → Option α
  | [] => none
  | x :: xs => some (xs.foldl (fun acc y => if key y < key acc then y else acc) x)

/-- Python `sep in s` (substring containment) on character lists. -/
def containsSeq (needle : List Char) : List Char → Bool
  | [] => needle.isEmpty
  | c :: rest => needle.isPrefixOf (c :: rest) || containsSeq needle rest

/-- Python `s.split(sep)` on character lists, fuelled so that the
definition is structural (fuel `≥ l.length` makes the fuel case dead). -/
def pySplitList (sep : List Char) : ℕ → List Char → List (List Char)
  | _, [] => [[]]
  | 0, l => [l]
  | fuel + 1, c :: rest =>
    if sep ≠ [] ∧ sep.isPrefixOf (c :: rest) then
      [] :: pySplitList sep fuel ((c :: rest).drop sep.length)
    else
      match pySplitList sep fuel rest with
      | [] => [[c]]
      | h :: t => (c :: h) :: t

/-- Python `s.split(sep)` on strings. -/
def pySplit (s sep : String) : List String :=
  (pySplitList sep.data s.data.length s.data).map String.mk

/-- Python `s.strip(chars)`. -/
def pyStrip (chars : List Char) (s : List Char) : List Char :=
  ((s.dropWhile (· ∈ chars)).reverse.dropWhile (· ∈ chars)).reverse

/-- Python `int(s)` restricted to the optionally-signed digit strings the
claims exercise; a malformed string raises `ValueError` in Python and is
mapped to `none` here. -/
def pyToInt (s : List Char) : Option ℤ :=
  let digits (cs : List Char) : Option ℤ :=
    if cs ≠ [] ∧ cs.all (·.isDigit) then
      some (cs.foldl (fun acc c => acc * 10 + ((c.toNat : ℤ) - ('0'.toNat : ℤ))) 0)
    else none
  match s with
  | '-' :: rest => (digits rest).map (- ·)
  | _ => digits s

/-- Python `dict` lookup on an insertion-ordered association list. -/
def alookup {α : Type} : List (String × α) → String → Option α
  | [], _ => none
  | p :: rest, k => if p.1 = k then some p.2 else alookup rest k

/-- Concatenate pieces with a separator between them (left inverse of
`pySplitList`). -/
def joinSep (sep : List Char) : List (List Char) → List Char
  | [] => []
  | [x] => x
  | x :: y :: xs => x ++ sep ++ joinSep sep (y :: xs)

/-! ## Releases and the time-spacing sampler (`GitHubClient.get_releases`) -/

/-- A GitHub release object, restricted to the fields the code reads.
`published_at = none` models JSON `null` (the key itself is always present
on API release objects). -/
structure Release where
  tag_name : String
  published_at : Option Date
  created_at : Date
  prerelease : Bool
  draft : Bool
deriving DecidableEq, Repr

/-- The sort key `r["published_at"] or r["created_at"]`: Python `or`
falls back to the created date when the published date is `null`. -/
def effDate (r : Release) : Date := r.published_at.getD r.created_at

/-- The `stable_only` filter: drop prereleases and drafts. -/
def filter_stable (rs : List Release) : List Release :=
  rs.filter (fun r => !r.prerelease && !r.draft)

/-- The order on releases induced by the sort key. -/
def dateLE (a b : Release) : Prop := effDate a ≤ effDate b

instance : DecidableRel dateLE := fun a b => inferInstanceAs (Decidable (effDate a ≤ effDate b))

instance : IsTotal Release dateLE := ⟨fun a b => le_total (effDate a) (effDate b)⟩

instance : IsTrans Release dateLE := ⟨fun _ _ _ => le_trans⟩

/-- `releases.sort(key=...)`: Python's sort is stable, and a stable sort's
output is uniquely determined, so insertion sort models it exactly. -/
def sort_by_date (rs : List Release) : List Release :=
  rs.insertionSort dateLE

/-- The `time_spaced` selection block of `get_releases` (source lines
197-223), applied to the sorted release list.  `int(i * interval)` is
`pyTrunc`; the candidate pool for every middle slot is the list without
its first element; `min` ties go to the first minimal match.  Python
raises `ZeroDivisionError` when `number_of_releases = 1` (division by
`n - 1 = 0`); the claims only concern `n ≥ 2`, where the rational
division is exact. -/
def timeSpace (releases : List Release) (number_of_releases : ℕ) : List Release :=
  match releases with
  | [] => []
  | r0 :: rest =>
    let releases_with_dates := (r0 :: rest).map (fun r => (r, effDate r))
    let firstP : Release × Date := (r0, effDate r0)
    let lastP : Release × Date := releases_with_dates.getLastD firstP
    let target_interval_days : ℚ :=
      ((lastP.2 - firstP.2 : ℤ) : ℚ) / ((number_of_releases : ℚ) - 1)
    let middles := (List.range' 1 (number_of_releases - 2)).map (fun i : ℕ =>
      let target_date : ℤ := firstP.2 + pyTrunc ((i : ℚ) * target_interval_days)
      (pyMinBy (fun rd => (rd.2 - target_date).natAbs) releases_with_dates.tail).getD firstP)
    let selected := (firstP :: middles) ++ [lastP]
    (selected.take number_of_releases).map (·.1)

/-- `get_releases` after the pagination loop: `fetched` is the
concatenation of all fetched pages.  Filters to stable releases, sorts by
effective date, and applies the time-spaced selection when more releases
exist than requested. -/
def get_releases (fetched : List Release) (stable_only time_spaced : Bool)
    (number_of_releases : ℕ) : List Release :=
  let releases := if stable_only then filter_stable fetched else fetched
  let releases := sort_by_date releases
  if time_spaced ∧ releases.length > number_of_releases then
    timeSpace releases number_of_releases
  else releases

/-! ## Trees and the language-matrix row builder
(`RepositoriesAnalytics._add_language_matrix`, per-release body) -/

/-- The supported-language extension table
(`constants.SUPPORTED_LANGUAGES`).  The source stores it as a Python set;
its iteration order (the matrix column order) is irrelevant to every
claim, so the listing order of the source file is used. -/
def SUPPORTED_LANGUAGES : List String :=
  [".js", ".jsx", ".ts", ".tsx", ".html", ".css", ".scss", ".vue",
   ".c", ".h", ".cpp", ".cc", ".hpp", ".rs", ".go", ".asm", ".s",
   ".java", ".kt", ".scala",
   ".cs", ".vb", ".fs",
   ".py", ".rb", ".php", ".pl", ".lua",
   ".sh", ".bat", ".cmd", ".ps1",
   ".hs", ".ex",
   ".swift", ".dart", ".m",
   ".r", ".jl", ".sql",
   ".cob", ".cbl", ".f90", ".f95", ".f", ".pas"]

/-- One entry of a recursive git tree, restricted to the fields read by
the code (`type`, `path`, `size`). -/
structure TreeEntry where
  type : String
  path : String
  size : ℕ
deriving DecidableEq, Repr

/-- The extension part of `os.path.splitext` on a basename: everything
from the last dot on, provided some non-dot character precedes that dot
(so dotfiles like `.bashrc` have no extension). -/
def extOf (base : List Char) : List Char :=
  let rev := base.reverse
  let pre := rev.takeWhile (· ≠ '.')
  if pre.length = rev.length then []
  else if (rev.drop (pre.length + 1)).any (· ≠ '.') then '.' :: pre.reverse
  else []

/-- `os.path.splitext(path)[1]`: the extension of the basename after the
last path separator. -/
def splitextExt (path : String) : String :=
  String.mk (extOf ((pySplitList ['/'] path.data.length path.data).getLastD []))

/-- `defaultdict(int)` accumulation: `file_sizes[ext] += size`. -/
def addSize (acc : List (String × ℕ)) (ext : String) (sz : ℕ) : List (String × ℕ) :=
  if (alookup acc ext).isSome then
    acc.map (fun p => if p.1 = ext then (p.1, p.2 + sz) else p)
  else acc ++ [(ext, sz)]

/-- The per-release size accumulation loop: every `blob` entry whose
extension is in the supported set contributes its byte size to its
extension's bucket; every other entry is skipped entirely. -/
def computeFileSizes (tree : List TreeEntry) : List (String × ℕ) :=
  tree.foldl (fun acc f =>
    if f.type = "blob" then
      let ext := splitextExt f.path
      if SUPPORTED_LANGUAGES.contains ext then addSize acc ext f.size else acc
    else acc) []

/-- One row of a language matrix: the `date` column plus one share per
supported-language extension (`fillna(0)` makes every column present). -/
structure MatrixRow where
  date : Date
  shares : List (String × ℚ)
deriving DecidableEq, Repr

/-- The per-release body of `_add_language_matrix`: accumulate byte sizes
per supported extension, normalize by the grand total (`x /= total` is
executed once per populated extension, so Python raises
`ZeroDivisionError` exactly when some extension is populated and the
total is zero), round each share to 4 decimal places, and key the row by
the release date.  The date is `release.get('published_at', ...)`: the
key is always present on API release objects, so a `null` published date
reaches `datetime.fromisoformat` as `None` and raises `TypeError` - the
`release.get('created_at', '')` default is unreachable. -/
def buildRow (tree : List TreeEntry) (release : Release) : Except PyError MatrixRow :=
  let file_sizes := computeFileSizes tree
  let total_size : ℕ := (file_sizes.map (·.2)).sum
  if file_sizes ≠ [] ∧ total_size = 0 then .error .zeroDivision
  else
    let norm := file_sizes.map (fun p => (p.1, pyRound4 ((p.2 : ℚ) / (total_size : ℚ))))
    match release.published_at with
    | none => .error .typeError
    | some d => .ok ⟨d, SUPPORTED_LANGUAGES.map (fun e => (e, (alookup norm e).getD 0))⟩

/-! ## The rate-limited HTTP client (`GitHubClient`) -/

/-- Parsed JSON values, as far as the client needs them. -/
inductive Json where
  | arr (items : List Json)
  | obj (fields : List (String × Json))
  | str (s : String)
  | num (n : ℤ)
  | null

/-- Python `len` on a parsed JSON body.  The endpoints the counting
operations hit always return arrays; `len` on a number would raise
`TypeError` in Python and is given the junk value 0 here. -/
def pyLen : Json → ℕ
  | .arr items => items.length
  | .obj fields => fields.length
  | .str s => s.data.length
  | _ => 0

/-- A GET request as `_get` issues it: resolved URL, query parameters,
and the `raw`/`cache` flags. -/
structure HttpRequest where
  url : String
  params : List (String × String)
  raw : Bool
  cache : Bool

/-- A transport-level response: status code, resolved URL
(`response.url`), the `Link` header when present, and the parsed body
(`response.json()`). -/
structure HttpResponse where
  status : ℕ
  resolvedUrl : String
  linkHeader : Option String
  body : Json

/-- The mutable state of a `GitHubClient` instance. -/
structure ClientState where
  base_url : String
  last_search_time : ℚ
  hourly_rate_limit : ℕ
  cached_url : Option String
  cached_json : Option Json

/-- What `_get` returns: the raw response object when `raw`, otherwise
the parsed JSON body. -/
inductive GetResult where
  | raw (response : HttpResponse)
  | json (j : Json)

/-- The sleep the client performs before every request:
`max(0, last_search_time + 3600 / hourly_rate_limit - time())`. -/
def sleepDuration (st : ClientState) (now : ℚ) : ℚ :=
  max 0 (st.last_search_time + 3600 / (st.hourly_rate_limit : ℚ) - now)

/-- `GitHubClient._get`, with the network as an oracle from requests to
responses and `tDone` the `time()` reading taken after a successful
request.  `requests.raise_for_status` raises exactly for status codes in
`[400, 600)`; the raise happens before any client field is written, so
the state is returned unchanged on error.  On success the call is
recorded in `last_search_time`; a raw result skips caching entirely;
otherwise `cache` stores the parsed body and resolved URL (deep copies -
aliasing is invisible for immutable values). -/
def client_get (st : ClientState) (net : HttpRequest → HttpResponse) (req : HttpRequest)
    (tDone : ℚ) : Except PyError GetResult × ClientState :=
  let response := net req
  if 400 ≤ response.status ∧ response.status < 600 then
    (.error (.http response.status), st)
  else
    let st1 := { st with last_search_time := tDone }
    if req.raw then (.ok (.raw response), st1)
    else if req.cache then
      (.ok (.json response.body),
       { st1 with cached_url := some response.resolvedUrl, cached_json := some response.body })
    else (.ok (.json response.body), st1)

/-- `GitHubClient._get_last_page_number`: scan the comma-separated `Link`
header for the first relation containing `rel="last"`, take the part
before the first `;`, strip `<> `, and parse the integer after the last
`page=` and before the following `&`; `-1` when no such relation exists.
A malformed page number raises `ValueError` (`int(...)`). -/
def get_last_page_number (response : HttpResponse) : Except PyError ℤ :=
  match response.linkHeader with
  | none => .ok (-1)
  | some header =>
    match (pySplitList [','] header.data.length header.data).find?
        (fun link => containsSeq ("rel=" ++ "\"last\"").data link) with
    | none => .ok (-1)
    | some link =>
      let last_page_url := pyStrip ['<', '>', ' '] ((pySplitList [';'] link.length link).headD [])
      let afterPage := (pySplitList ("page=".data) last_page_url.length last_page_url).getLastD []
      match pyToInt ((pySplitList ['&'] afterPage.length afterPage).headD []) with
      | some n => .ok n
      | none => .error .valueError

/-- The request `get_release_count` issues: the releases endpoint, page 1
implicitly (no `page` parameter, the API default), one item per page,
raw mode, no caching. -/
def release_count_request (st : ClientState) (owner repo_name : String) : HttpRequest :=
  { url := st.base_url ++ "/repos/" ++ owner ++ "/" ++ repo_name ++ "/releases"
    params := [("per_page", "1")], raw := true, cache := false }

/-- The request `get_contributor_count` issues. -/
def contributor_count_request (st : ClientState) (owner repo_name : String) : HttpRequest :=
  { url := st.base_url ++ "/repos/" ++ owner ++ "/" ++ repo_name ++ "/contributors"
    params := [("per_page", "1"), ("anon", "true")], raw := true, cache := false }

/-- The request `get_commit_count` issues. -/
def commit_count_request (st : ClientState) (owner repo_name : String) : HttpRequest :=
  { url := st.base_url ++ "/repos/" ++ owner ++ "/" ++ repo_name ++ "/commits"
    params := [("per_page", "1")], raw := true, cache := false }

/-- The request `get_issue_count` issues (see `get_issue_count`). -/
def issue_count_request (st : ClientState) (owner repo_name : String) : HttpRequest :=
  { url := st.base_url ++ "/repos/" ++ owner ++ "/" ++ repo_name ++ "/issues"
    params := [("per_page", "1")], raw := true, cache := false }

/-- The shared tail of every counting operation: take the last page
number from the pagination boundary if present, otherwise the literal
length of the returned page. -/
def count_from_response (response : HttpResponse) : Except PyError ℤ :=
  match get_last_page_number response with
  | .error e => .error e
  | .ok n => if n ≠ -1 then .ok n else .ok (pyLen response.body)

/-- `GitHubClient.get_release_count`. -/
def get_release_count (st : ClientState) (net : HttpRequest → HttpResponse)
    (owner repo_name : String) (tDone : ℚ) : Except PyError ℤ × ClientState :=
  match client_get st net (release_count_request st owner repo_name) tDone with
  | (.error e, st') => (.error e, st')
  | (.ok (.raw response), st') => (count_from_response response, st')
  | (.ok (.json _), st') => (.ok 0, st')

/-- `GitHubClient.get_contributor_count`. -/
def get_contributor_count (st : ClientState) (net : HttpRequest → HttpResponse)
    (owner repo_name : String) (tDone : ℚ) : Except PyError ℤ × ClientState :=
  match client_get st net (contributor_count_request st owner repo_name) tDone with
  | (.error e, st') => (.error e, st')
  | (.ok (.raw response), st') => (count_from_response response, st')
  | (.ok (.json _), st') => (.ok 0, st')

/-- `GitHubClient.get_commit_count`. -/
def get_commit_count (st : ClientState) (net : HttpRequest → HttpResponse)
    (owner repo_name : String) (tDone : ℚ) : Except PyError ℤ × ClientState :=
  match client_get st net (commit_count_request st owner repo_name) tDone with
  | (.error e, st') => (.error e, st')
  | (.ok (.raw response), st') => (count_from_response response, st')
  | (.ok (.json _), st') => (.ok 0, st')

/-- Modelled from the spec: `GitHubClient.get_issue_count` is called by
`_append_repository_summary` but its definition is absent from the
source snapshot; per the spec's counting-operations description it
requests page 1 of the issues listing with `perPage=1` in raw mode and
applies the same pagination-boundary counting as the other three
operations. -/
def get_issue_count (st : ClientState) (net : HttpRequest → HttpResponse)
    (owner repo_name : String) (tDone : ℚ) : Except PyError ℤ × ClientState :=
  match client_get st net (issue_count_request st owner repo_name) tDone with
  | (.error e, st') => (.error e, st')
  | (.ok (.raw response), st') => (count_from_response response, st')
  | (.ok (.json _), st') => (.ok 0, st')

/-! ## The collection store (`RepositoriesAnalytics`) -/

/-- The `RepositorySummary` dataclass: one summary-table row. -/
structure RepositorySummary where
  name : String
  created_at : Date
  updated_at : Date
  file_count : ℤ
  release_count : ℤ
  size : ℤ
  star_count : ℤ
  fork_count : ℤ
  contributor_count : ℤ
  commit_count : ℤ
  issue_count : ℤ
  topics : List String
deriving DecidableEq, Repr

/-- The fields of a repository object from the search results that
`collect_repository_data_for_search` and `_append_repository_summary`
read directly. -/
structure RepoData where
  full_name : String
  owner_login : String
  name : String
  created_at : Date
  updated_at : Date
  size : ℤ
  stargazers_count : ℤ
  forks_count : ℤ
  default_branch : String
  topics : List String
deriving DecidableEq, Repr

/-- The results of the five gateway calls `_append_repository_summary`
performs (file count from the tree, release/contributor/commit/issue
counts).  Their transport-level behaviour is modelled in the client
section; a failing call aborts the run and is outside the exception-free
executions the store claims range over. -/
structure GatewayCounts where
  file_count : ℤ
  release_count : ℤ
  contributor_count : ℤ
  commit_count : ℤ
  issue_count : ℤ
deriving DecidableEq, Repr

/-- The state of a `RepositoriesAnalytics` instance: the summary table
(ordered rows), the dict of per-repository language matrices (insertion
ordered), and the `existing_repositories` set (modelled as the list of
its insertion order; only membership is ever observed). -/
structure Store where
  repos_summary : List RepositorySummary
  language_matrices : List (String × List MatrixRow)
  existing_repositories : List String
deriving DecidableEq, Repr

/-- A fresh `RepositoriesAnalytics.__init__` state. -/
def emptyStore : Store := ⟨[], [], []⟩

/-- `__delitem__`: when the key is in the existence set, drop its summary
rows, `del` its matrix entry (`KeyError` when absent from the dict), and
remove it from the set; a no-op otherwise. -/
def delitem (s : Store) (key : String) : Except PyError Store :=
  if key ∈ s.existing_repositories then
    if (alookup s.language_matrices key).isSome then
      .ok { repos_summary := s.repos_summary.filter (fun r => r.name ≠ key)
            language_matrices := s.language_matrices.filter (fun p => p.1 ≠ key)
            existing_repositories := s.existing_repositories.filter (· ≠ key) }
    else .error .keyError
  else .ok s

/-- Append one matrix row for `key`: create the entry when missing
(`if full_name not in self._language_matrices`), else append at index
`len` of the existing frame. -/
def storeAddRow (s : Store) (key : String) (row : MatrixRow) : Store :=
  { s with language_matrices :=
      if (alookup s.language_matrices key).isSome then
        s.language_matrices.map (fun p => if p.1 = key then (p.1, p.2 ++ [row]) else p)
      else s.language_matrices ++ [(key, [row])] }

/-- The release loop of `_add_language_matrix`: build one row per
sampled release in order (the tree fetched for the release at position
`i` is `trees i`) and append it; the first failing row build aborts the
whole call. -/
def addRows (s : Store) (key : String) (rs : List Release) (trees : ℕ → List TreeEntry)
    (i : ℕ) : Except PyError Store :=
  match rs with
  | [] => .ok s
  | r :: rest =>
    match buildRow (trees i) r with
    | .error e => .error e
    | .ok row => addRows (storeAddRow s key row) key rest trees (i + 1)

/-- `_add_language_matrix`: sample the stable releases time-spaced, and
if any were found build and append one matrix row per sampled release;
returns whether at least one release existed.  `fetched` is the
concatenated release listing the client pagination produced. -/
def add_language_matrix (s : Store) (full_name : String) (fetched : List Release)
    (n_releases : ℕ) (trees : ℕ → List TreeEntry) : Except PyError (Store × Bool) :=
  let releases := get_releases fetched true true n_releases
  if releases.isEmpty then .ok (s, false)
  else
    match addRows s full_name releases trees 0 with
    | .error e => .error e
    | .ok s' => .ok (s', true)

/-- The `RepositorySummary` row `_append_repository_summary` constructs
from the repository object's direct fields and the five gateway-call
results. -/
def mkSummaryRow (repo : RepoData) (c : GatewayCounts) : RepositorySummary :=
  { name := repo.full_name
    created_at := repo.created_at
    updated_at := repo.updated_at
    file_count := c.file_count
    release_count := c.release_count
    size := repo.size
    star_count := repo.stargazers_count
    fork_count := repo.forks_count
    contributor_count := c.contributor_count
    commit_count := c.commit_count
    issue_count := c.issue_count
    topics := repo.topics }

/-- `_append_repository_summary`: `df.loc[len(df)] = row` appends exactly
one new row at the end of the summary table. -/
def append_repository_summary (s : Store) (repo : RepoData) (c : GatewayCounts) : Store :=
  { s with repos_summary := s.repos_summary ++ [mkSummaryRow repo c] }

/-- Python `set.add`. -/
def setAdd (l : List String) (k : String) : List String :=
  if k ∈ l then l else l ++ [k]

/-- One repository of the search-result loop, together with the API data
its processing consumes. -/
structure RepoTask where
  repo : RepoData
  fetched : List Release
  trees : ℕ → List TreeEntry
  counts : GatewayCounts

/-- The body of the search-result loop of
`collect_repository_data_for_search` for a single repository: skip when
present and not updating; delete first when updating; build the language
matrix; skip (without a summary row) when no release was found; else
append the summary row and mark the key as existing.  Returns whether
the repository counted as processed. -/
def processRepo (s : Store) (t : RepoTask) (update : Bool) (n_releases : ℕ) :
    Except PyError (Store × Bool) :=
  if t.repo.full_name ∈ s.existing_repositories ∧ ¬update then .ok (s, false)
  else
    match (if update then delitem s t.repo.full_name else .ok s) with
    | .error e => .error e
    | .ok s1 =>
      match add_language_matrix s1 t.repo.full_name t.fetched n_releases t.trees with
      | .error e => .error e
      | .ok (s2, any_release) =>
        if ¬any_release then .ok (s2, false)
        else
          let s3 := append_repository_summary s2 t.repo t.counts
          .ok ({ s3 with existing_repositories := setAdd s3.existing_repositories t.repo.full_name },
               true)

/-- `collect_repository_data_for_search`: process up to
`max_repositories` search results in order, counting the processed ones.
The search results and the per-repository API data are supplied by the
oracle task list (`client.search_repositories` is absent from the source
snapshot; per the spec it only supplies the result list). -/
def collect_repository_data_for_search (s : Store) (tasks : List RepoTask) (update : Bool)
    (max_repositories n_releases : ℕ) : Except PyError (Store × ℕ) :=
  (tasks.take max_repositories).foldlM
    (fun acc t =>
      match processRepo acc.1 t update n_releases with
      | .error e => .error e
      | .ok (s', processed) => .ok (s', acc.2 + if processed then 1 else 0))
    (s, 0)

/-- One store operation of a collection/deletion history. -/
inductive StoreOp where
  | collect (tasks : List RepoTask) (update : Bool) (max_repositories n_releases : ℕ)
  | delete (key : String)

/-- Run one store operation. -/
def runStep (s : Store) : StoreOp → Except PyError Store
  | .collect tasks update maxR nR =>
    match collect_repository_data_for_search s tasks update maxR nR with
    | .error e => .error e
    | .ok (s', _) => .ok s'
  | .delete key => delitem s key

/-- Run a sequence of collection and deletion operations; the result is
`.ok` exactly for the histories that complete without an exception. -/
def runOps (s : Store) : List StoreOp → Except PyError Store
  | [] => .ok s
  | op :: rest =>
    match runStep s op with
    | .error e => .error e
    | .ok s' => runOps s' rest

/-! ## CSV persistence (`to_csv` / `from_csv`) -/

/-- The contents `to_csv` writes below the target folder: the rows of
`repositories_summary.csv` and, for each matrix, the
`language_matrices/<owner>/<repo>.csv` file.  Tabular values survive the
CSV encode/decode round trip unchanged at this level of modelling. -/
structure FolderData where
  summaryRows : List RepositorySummary
  matrixFiles : List (String × String × List MatrixRow)
deriving DecidableEq, Repr

/-- `to_csv` with `empty=True`: replace the folder contents with the
summary table and one file per matrix.  `owner, repo_name =
full_name.split("/")` raises `ValueError` unless the key splits into
exactly two parts. -/
def to_csv (s : Store) : Except PyError FolderData :=
  match (s.language_matrices.mapM (fun p : String × List MatrixRow =>
      match pySplit p.1 "/" with
      | [owner, repo_name] => Except.ok (owner, repo_name, p.2)
      | _ => Except.error PyError.valueError) : Except PyError _) with
  | .error e => .error e
  | .ok files => .ok { summaryRows := s.repos_summary, matrixFiles := files }

/-- `from_csv`: an empty folder yields a fresh instance; otherwise read
the summary table, walk the owner subfolders reading every matrix file
(rebuilding the key as `f"{owner}/{repo_name}"`), and rebuild the
existence set from the summary table's `name` column. -/
def from_csv (f : FolderData) : Store :=
  if f.summaryRows.isEmpty ∧ f.matrixFiles.isEmpty then emptyStore
  else
    { repos_summary := f.summaryRows
      language_matrices := f.matrixFiles.map (fun x => (x.1 ++ "/" ++ x.2.1, x.2.2))
      existing_repositories := (f.summaryRows.map (·.name)).dedup }

/-! ## Lemmas about `pyMinBy` (Python `min` with a key) -/

/-- Specification of Python `min(l, key)`: `sel` splits `l` into a
prefix of strictly larger keys and a suffix of no-smaller keys, so `sel`
is the first element attaining the minimal key. -/
def FirstMinimal {α β : Type} [LinearOrder β] (key : α → β) (l : List α) (sel : α) : Prop :=
  ∃ l1 l2, l = l1 ++ sel :: l2 ∧ (∀ z ∈ l1, key sel < key z) ∧ (∀ z ∈ l2, key sel ≤ key z)

theorem foldl_min_firstMinimal {α β : Type} [LinearOrder β] (key : α → β) :
    ∀ (xs : List α) (a : α),
      FirstMinimal key (a :: xs)
        (xs.foldl (fun acc y => if key y < key acc then y else acc) a) := by
  intro xs
  induction xs with
  | nil =>
    intro a
    exact ⟨[], [], rfl, by simp, by simp⟩
  | cons y ys ih =>
    intro a
    simp only [List.foldl_cons]
    by_cases h : key y < key a
    · simp only [if_pos h]
      obtain ⟨l1, l2, heq, h1, h2⟩ := ih y
      generalize hMdef : List.foldl (fun acc y => if key y < key acc then y else acc) y ys = M
        at heq h1 h2 ⊢
      have hm : key M ≤ key y := by
        rcases l1 with _ | ⟨b, l1'⟩
        · simp only [List.nil_append, List.cons.injEq] at heq
          rw [heq.1]
        · simp only [List.cons_append, List.cons.injEq] at heq
          have hb := h1 b (by simp)
          rw [← heq.1] at hb
          exact le_of_lt hb
      refine ⟨a :: l1, l2, by rw [List.cons_append, heq], ?_, h2⟩
      intro z hz
      rcases List.mem_cons.mp hz with hz | hz
      · rw [hz]
        exact lt_of_le_of_lt hm h
      · exact h1 z hz
    · simp only [if_neg h]
      push_neg at h
      obtain ⟨l1, l2, heq, h1, h2⟩ := ih a
      generalize hMdef : List.foldl (fun acc y => if key y < key acc then y else acc) a ys = M
        at heq h1 h2 ⊢
      rcases l1 with _ | ⟨b, l1'⟩
      · simp only [List.nil_append, List.cons.injEq] at heq
        refine ⟨[], y :: l2, ?_, by simp, ?_⟩
        · rw [List.nil_append, ← heq.1, heq.2]
        · intro z hz
          rcases List.mem_cons.mp hz with hz | hz
          · rw [hz, ← heq.1]
            exact h
          · exact h2 z hz
      · simp only [List.cons_append, List.cons.injEq] at heq
        have hma : key M < key a := by
          have hb := h1 b (by simp)
          rw [← heq.1] at hb
          exact hb
        refine ⟨a :: y :: l1', l2,
          by rw [heq.2, List.cons_append, List.cons_append], ?_, h2⟩
        intro z hz
        rcases List.mem_cons.mp hz with hz | hz
        · rw [hz]
          exact hma
        · rcases List.mem_cons.mp hz with hz | hz
          · rw [hz]
            exact lt_of_lt_of_le hma h
          · exact h1 z (by simp [hz])

theorem pyMinBy_firstMinimal {α β : Type} [LinearOrder β] (key : α → β) {l : List α} {m : α}
    (h : pyMinBy key l = some m) : FirstMinimal key l m := by
  rcases l with _ | ⟨x, xs⟩
  · simp [pyMinBy] at h
  · simp only [pyMinBy, Option.some.injEq] at h
    exact h ▸ foldl_min_firstMinimal key xs x

theorem pyMinBy_map {α γ β : Type} [LinearOrder β] (key : γ → β) (f : α → γ) (l : List α) :
    pyMinBy key (l.map f) = (pyMinBy (fun a => key (f a)) l).map f := by
  rcases l with _ | ⟨x, xs⟩
  · simp [pyMinBy]
  · simp only [List.map_cons, pyMinBy, Option.map_some, Option.some.injEq]
    rw [List.foldl_map]
    induction xs generalizing x with
    | nil => simp
    | cons y ys ih =>
      simp only [List.foldl_cons]
      by_cases h : key (f y) < key (f x)
      · simp [h, ih]
      · simp [h, ih]

theorem pyMinBy_isSome {α β : Type} [LinearOrder β] (key : α → β) {l : List α} (h : l ≠ []) :
    (pyMinBy key l).isSome := by
  rcases l with _ | ⟨x, xs⟩
  · exact absurd rfl h
  · simp [pyMinBy]

/-- Arithmetic core of `firstMinimal_mono`: the midpoint argument. -/
theorem natAbs_nearest_mono {d e t t' : ℤ} (hde : d ≤ e) (htt : t ≤ t')
    (hk1 : (e - t).natAbs < (d - t).natAbs)
    (hk2 : (d - t').natAbs ≤ (e - t').natAbs) : e ≤ d := by
  omega

/-- Monotonicity of the first-minimal nearest neighbour: on a list
sorted by a date function, moving the target date later never moves the
chosen first-minimal element to an earlier date. -/
theorem firstMinimal_mono {α : Type} (dOf : α → ℤ) {l : List α}
    (hs : l.Pairwise (fun p q => dOf p ≤ dOf q)) {t t' : ℤ} (htt : t ≤ t')
    {m m' : α}
    (hm : FirstMinimal (fun rd => (dOf rd - t).natAbs) l m)
    (hm' : FirstMinimal (fun rd => (dOf rd - t').natAbs) l m') :
    dOf m ≤ dOf m' := by
  obtain ⟨l1, l2, he, h1, h2⟩ := hm
  obtain ⟨l1', l2', he', h1', h2'⟩ := hm'
  rw [he] at he'
  rcases List.append_eq_append_iff.mp he' with ⟨mid, hmid1, hmid2⟩ | ⟨mid, hmid1, hmid2⟩
  · -- l1' = l1 ++ mid and m :: l2 = mid ++ m' :: l2' : m' is not before m
    rcases mid with _ | ⟨c, mid2⟩
    · simp only [List.nil_append, List.cons.injEq] at hmid2
      rw [hmid2.1]
    · simp only [List.cons_append, List.cons.injEq] at hmid2
      have hmem : m' ∈ l2 := by
        rw [hmid2.2]
        simp
      rw [he] at hs
      have := (List.pairwise_cons.mp (List.pairwise_append.mp hs).2.1).1 m' hmem
      exact this
  · -- l1 = l1' ++ mid and m' :: l2' = mid ++ m :: l2 : m' is weakly before m
    rcases mid with _ | ⟨c, mid2⟩
    · simp only [List.nil_append, List.cons.injEq] at hmid2
      rw [← hmid2.1]
    · simp only [List.cons_append, List.cons.injEq] at hmid2
      -- m' = c is in l1, and m is in l2'
      have hm'l1 : m' ∈ l1 := by
        rw [hmid1, ← hmid2.1]
        simp
      have hml2' : m ∈ l2' := by
        rw [hmid2.2]
        simp
      have hk1 := h1 m' hm'l1
      have hk2 := h2' m hml2'
      have hde : dOf m' ≤ dOf m := by
        rw [he] at hs
        exact (List.pairwise_append.mp hs).2.2 m' hm'l1 m (by simp)
      exact natAbs_nearest_mono hde htt hk1 hk2

/-- The spec-side middle-slot target date:
`firstDate + floor(i * span / (targetCount - 1))` days. -/
def slotTarget (d0 dLast : Date) (n i : ℕ) : ℤ :=
  d0 + ⌊((i : ℚ) * ((dLast - d0 : ℤ) : ℚ)) / ((n : ℚ) - 1)⌋

/-- The code's `int(i * interval)` target equals the spec-side floor
target: the product is nonnegative (the span is nonnegative and
`n ≥ 2`), so truncation toward zero is the floor, and
`i * (span / (n-1)) = (i * span) / (n-1)` exactly over `ℚ`. -/
theorem code_target_eq_slotTarget (d0 dLast : Date) (n i : ℕ) (hd : d0 ≤ dLast) (hn : 2 ≤ n) :
    d0 + pyTrunc ((i : ℚ) * (((dLast - d0 : ℤ) : ℚ) / ((n : ℚ) - 1))) =
      slotTarget d0 dLast n i := by
  have hden : (0 : ℚ) < (n : ℚ) - 1 := by
    have : (2 : ℚ) ≤ (n : ℚ) := by exact_mod_cast hn
    linarith
  have hnum : (0 : ℚ) ≤ ((dLast - d0 : ℤ) : ℚ) := by
    have : (0 : ℤ) ≤ dLast - d0 := sub_nonneg.mpr hd
    exact_mod_cast this
  have hq : ((i : ℚ) * (((dLast - d0 : ℤ) : ℚ) / ((n : ℚ) - 1))) =
      ((i : ℚ) * ((dLast - d0 : ℤ) : ℚ)) / ((n : ℚ) - 1) := (mul_div_assoc _ _ _).symm
  have hpos : (0 : ℚ) ≤ (i : ℚ) * (((dLast - d0 : ℤ) : ℚ) / ((n : ℚ) - 1)) :=
    mul_nonneg (Nat.cast_nonneg i) (div_nonneg hnum (le_of_lt hden))
  rw [slotTarget, pyTrunc, if_neg (not_lt.mpr hpos), hq]

/-- The targets are monotone in the slot index (for `n ≥ 2` and a
nonnegative span). -/
theorem slotTarget_mono (d0 dLast : Date) (n : ℕ) (hn : 2 ≤ n) (hd : d0 ≤ dLast)
    {i j : ℕ} (hij : i ≤ j) : slotTarget d0 dLast n i ≤ slotTarget d0 dLast n j := by
  have hden : (0 : ℚ) < (n : ℚ) - 1 := by
    have : (2 : ℚ) ≤ (n : ℚ) := by exact_mod_cast hn
    linarith
  have hnum : (0 : ℚ) ≤ ((dLast - d0 : ℤ) : ℚ) := by
    have : (0 : ℤ) ≤ dLast - d0 := sub_nonneg.mpr hd
    exact_mod_cast this
  have hmul : ((i : ℚ) * ((dLast - d0 : ℤ) : ℚ)) ≤ ((j : ℚ) * ((dLast - d0 : ℤ) : ℚ)) :=
    mul_le_mul_of_nonneg_right (by exact_mod_cast hij) hnum
  exact add_le_add_left (Int.floor_le_floor ((div_le_div_iff_of_pos_right hden).mpr hmul)) d0

/-- In a list sorted by effective date, the head is no later than any
element. -/
theorem sorted_head_le {r0 : Release} {rest : List Release}
    (hs : (r0 :: rest).Pairwise dateLE) {a : Release} (ha : a ∈ r0 :: rest) :
    effDate r0 ≤ effDate a := by
  rcases List.mem_cons.mp ha with h | h
  · rw [h]
  · exact (List.pairwise_cons.mp hs).1 a h

/-- In a list sorted by effective date, every element is no later than
the last. -/
theorem sorted_le_getLast : ∀ {l : List Release}, l.Pairwise dateLE →
    ∀ {a : Release}, a ∈ l → ∀ (h : l ≠ []), effDate a ≤ effDate (l.getLast h) := by
  intro l
  induction l with
  | nil => intro _ a ha h; exact absurd rfl h
  | cons x xs ih =>
    intro hs a ha h
    rcases xs with _ | ⟨y, ys⟩
    · simp only [List.mem_singleton] at ha
      rw [ha, List.getLast_singleton]
    · rw [List.getLast_cons (List.cons_ne_nil y ys)]
      rcases List.mem_cons.mp ha with h1 | h1
      · have hx := (List.pairwise_cons.mp hs).1
        have hmem := List.getLast_mem (l := y :: ys) (List.cons_ne_nil y ys)
        rw [h1]
        exact hx _ hmem
      · exact ih (List.pairwise_cons.mp hs).2 h1 (List.cons_ne_nil y ys)

/-- Unfolding of the time-spaced selection for `n ≥ 2` and more releases
than requested: the first element, then one first-minimal nearest
neighbour (chosen among all elements except the first) per middle slot,
then the last element. -/
theorem timeSpace_cons_eq (r0 : Release) (rest : List Release) (n : ℕ) (hn : 2 ≤ n)
    (hlen : n < (r0 :: rest).length) :
    timeSpace (r0 :: rest) n =
      (r0 :: (List.range' 1 (n - 2)).map (fun i : ℕ =>
          (pyMinBy (fun r => (effDate r -
              (effDate r0 + pyTrunc ((i : ℚ) *
                (((effDate ((r0 :: rest).getLast (List.cons_ne_nil r0 rest)) - effDate r0 : ℤ) : ℚ) /
                  ((n : ℚ) - 1))))).natAbs) rest).getD r0))
        ++ [(r0 :: rest).getLast (List.cons_ne_nil r0 rest)] := by
  have hrest : rest ≠ [] := by
    intro h
    subst h
    simp at hlen
    omega
  have hlast : (List.map (fun r => (r, effDate r)) (r0 :: rest)).getLastD (r0, effDate r0)
      = ((r0 :: rest).getLast (List.cons_ne_nil r0 rest),
         effDate ((r0 :: rest).getLast (List.cons_ne_nil r0 rest))) := by
    rw [List.getLastD_eq_getLast?, List.getLast?_map,
      List.getLast?_eq_getLast _ (List.cons_ne_nil r0 rest)]
    rfl
  simp only [timeSpace]
  rw [hlast]
  have hlen2 : (((r0, effDate r0) ::
      (List.range' 1 (n - 2)).map (fun i : ℕ =>
        (pyMinBy (fun rd => (rd.2 -
            (effDate r0 + pyTrunc ((i : ℚ) *
              (((effDate ((r0 :: rest).getLast (List.cons_ne_nil r0 rest)) - effDate r0 : ℤ) : ℚ) /
                ((n : ℚ) - 1))))).natAbs)
          (List.map (fun r => (r, effDate r)) (r0 :: rest)).tail).getD (r0, effDate r0))) ++
      [((r0 :: rest).getLast (List.cons_ne_nil r0 rest),
        effDate ((r0 :: rest).getLast (List.cons_ne_nil r0 rest)))]).length ≤ n := by
    simp [List.length_range']
    omega
  rw [List.take_of_length_le hlen2]
  simp only [List.map_append, List.map_cons, List.map_map, List.map_nil]
  refine congrArg₂ _ (congrArg _ (List.map_congr_left ?_)) rfl
  intro i hi
  simp only [Function.comp_apply, List.map_cons, List.tail_cons]
  rw [pyMinBy_map]
  obtain ⟨m, hm⟩ := Option.isSome_iff_exists.mp
    (pyMinBy_isSome (fun r => (effDate r -
      (effDate r0 + pyTrunc ((i : ℚ) *
        (((effDate ((r0 :: rest).getLast (List.cons_ne_nil r0 rest)) - effDate r0 : ℤ) : ℚ) /
          ((n : ℚ) - 1))))).natAbs) hrest)
  rw [hm]
  rfl

/-- The effective date of the first release of a list (0 for an empty
list, which no claim exercises). -/
def firstDate (rs : List Release) : Date := (rs.map effDate).headD 0

/-- The effective date of the last release of a list. -/
def lastDate (rs : List Release) : Date := (rs.map effDate).getLastD 0

theorem lastDate_cons (r0 : Release) (rest : List Release) :
    lastDate (r0 :: rest) = effDate ((r0 :: rest).getLast (List.cons_ne_nil r0 rest)) := by
  rw [lastDate, List.getLastD_eq_getLast?, List.getLast?_map,
    List.getLast?_eq_getLast _ (List.cons_ne_nil r0 rest)]
  rfl

/-! ## Claim C3: the time-spacing contract -/

/-- C3: for every release list sorted ascending by effective date with
`len > targetCount ≥ 2`, `spaceReleases` (the `time_spaced` block of
`get_releases`) returns exactly `targetCount` releases, its first and
last output entries are the chronologically first and last input
release, and every middle slot `i ∈ [1, targetCount-2]` holds the
release, chosen among all releases excluding the first, whose effective
date is first-minimal in absolute day-distance to
`firstDate + floor(i * span / (targetCount - 1))` days. -/

theorem spaceReleases_spec (rs : List Release) (n : ℕ)
    (hsort : rs.Pairwise dateLE) (hn : 2 ≤ n) (hlen : rs.length > n) :
    (timeSpace rs n).length = n ∧
    (timeSpace rs n).head? = rs.head? ∧
    (timeSpace rs n).getLast? = rs.getLast? ∧
    (∀ i, 1 ≤ i → i ≤ n - 2 → ∃ sel,
      (timeSpace rs n)[i]? = some sel ∧
      FirstMinimal (fun r => (effDate r - slotTarget (firstDate rs) (lastDate rs) n i).natAbs)
        rs.tail sel) := by
  rcases rs with _ | ⟨r0, rest⟩
  · simp at hlen
  · have hlen' : n < (r0 :: rest).length := hlen
    have hrest : rest ≠ [] := by
      intro h
      subst h
      simp at hlen'
      omega
    have hd : effDate r0 ≤ effDate ((r0 :: rest).getLast (List.cons_ne_nil r0 rest)) :=
      sorted_le_getLast hsort (List.mem_cons_self r0 rest) (List.cons_ne_nil r0 rest)
    have hfd : firstDate (r0 :: rest) = effDate r0 := by simp [firstDate]
    have hld : lastDate (r0 :: rest) =
        effDate ((r0 :: rest).getLast (List.cons_ne_nil r0 rest)) := lastDate_cons r0 rest
    have hkey : ∀ i : ℕ, (fun r => (effDate r -
        (effDate r0 + pyTrunc ((i : ℚ) *
          (((effDate ((r0 :: rest).getLast (List.cons_ne_nil r0 rest)) - effDate r0 : ℤ) : ℚ) /
            ((n : ℚ) - 1))))).natAbs)
        = (fun r => (effDate r -
            slotTarget (firstDate (r0 :: rest)) (lastDate (r0 :: rest)) n i).natAbs) := by
      intro i
      funext r
      rw [code_target_eq_slotTarget _ _ n i hd hn, hfd, hld]
    rw [timeSpace_cons_eq r0 rest n hn hlen']
    refine ⟨?_, ?_, ?_, ?_⟩
    · simp [List.length_range']
      omega
    · simp
    · rw [List.getLast?_concat, List.getLast?_eq_getLast _ (List.cons_ne_nil r0 rest)]
    · intro i hi1 hi2
      obtain ⟨j, rfl⟩ : ∃ j, i = j + 1 := ⟨i - 1, by omega⟩
      have hj : j < n - 2 := by omega
      rw [List.cons_append, List.getElem?_cons_succ, List.getElem?_append, if_pos
        (by simp only [List.length_map, List.length_range']; exact hj),
        List.getElem?_map, List.getElem?_range' 1 1 hj]
      simp only [Option.map_some']
      rw [hkey (1 + 1 * j)]
      have hidx : 1 + 1 * j = j + 1 := by omega
      rw [hidx]
      obtain ⟨m, hm⟩ := Option.isSome_iff_exists.mp
        (pyMinBy_isSome (fun r => (effDate r -
          slotTarget (firstDate (r0 :: rest)) (lastDate (r0 :: rest)) n (j + 1)).natAbs) hrest)
      refine ⟨m, ?_, ?_⟩
      · rw [hm]
        rfl
      · have hfm := pyMinBy_firstMinimal _ hm
        simpa using hfm

/-- Concrete input for the C3 witness: four stable releases at days 0,
10, 60 and 100. -/
def c3rs : List Release :=
  [⟨"v1", some 0, 0, false, false⟩, ⟨"v2", some 10, 10, false, false⟩,
   ⟨"v3", some 60, 60, false, false⟩, ⟨"v4", some 100, 100, false, false⟩]

/-- Witness for C3 at a concrete input. -/
theorem spaceReleases_spec_witness :
    (timeSpace c3rs 3).length = 3 ∧
    (timeSpace c3rs 3).head? = c3rs.head? ∧
    (timeSpace c3rs 3).getLast? = c3rs.getLast? ∧
    (∀ i, 1 ≤ i → i ≤ 3 - 2 → ∃ sel,
      (timeSpace c3rs 3)[i]? = some sel ∧
      FirstMinimal (fun r => (effDate r - slotTarget (firstDate c3rs) (lastDate c3rs) 3 i).natAbs)
        c3rs.tail sel) :=
  spaceReleases_spec c3rs 3 (by decide) (by decide) (by decide)

/-! ## Sortedness of the sampled selection -/

theorem timeSpace_pairwise (rs : List Release) (n : ℕ)
    (hsort : rs.Pairwise dateLE) (hlen : rs.length > n) :
    (timeSpace rs n).Pairwise dateLE := by
  rcases rs with _ | ⟨r0, rest⟩
  · simp [timeSpace]
  · rcases Nat.lt_or_ge n 2 with hn | hn
    · -- n = 0 or n = 1 : the truncated output has at most one element
      interval_cases n
      · simp [timeSpace]
      · simp [timeSpace]
    · have hrest : rest ≠ [] := by
        intro h
        subst h
        simp at hlen
        omega
      have hd : effDate r0 ≤ effDate ((r0 :: rest).getLast (List.cons_ne_nil r0 rest)) :=
        sorted_le_getLast hsort (List.mem_cons_self r0 rest) (List.cons_ne_nil r0 rest)
      have htail : rest.Pairwise dateLE := (List.pairwise_cons.mp hsort).2
      rw [timeSpace_cons_eq r0 rest n hn hlen]
      -- the selected middle element for slot i, with its first-minimal property
      have hsel : ∀ i : ℕ, ∃ m,
          (pyMinBy (fun r => (effDate r -
            (effDate r0 + pyTrunc ((i : ℚ) *
              (((effDate ((r0 :: rest).getLast (List.cons_ne_nil r0 rest)) - effDate r0 : ℤ) : ℚ) /
                ((n : ℚ) - 1))))).natAbs) rest).getD r0 = m ∧
          FirstMinimal (fun r => (effDate r -
            slotTarget (effDate r0)
              (effDate ((r0 :: rest).getLast (List.cons_ne_nil r0 rest))) n i).natAbs) rest m := by
        intro i
        have hkey : (fun r => (effDate r -
            (effDate r0 + pyTrunc ((i : ℚ) *
              (((effDate ((r0 :: rest).getLast (List.cons_ne_nil r0 rest)) - effDate r0 : ℤ) : ℚ) /
                ((n : ℚ) - 1))))).natAbs)
            = (fun r => (effDate r -
                slotTarget (effDate r0)
                  (effDate ((r0 :: rest).getLast (List.cons_ne_nil r0 rest))) n i).natAbs) := by
          funext r
          rw [code_target_eq_slotTarget _ _ n i hd hn]
        rw [hkey]
        obtain ⟨m, hm⟩ := Option.isSome_iff_exists.mp
          (pyMinBy_isSome (fun r => (effDate r -
            slotTarget (effDate r0)
              (effDate ((r0 :: rest).getLast (List.cons_ne_nil r0 rest))) n i).natAbs) hrest)
        exact ⟨m, by rw [hm]; rfl, pyMinBy_firstMinimal _ hm⟩
      rw [List.cons_append, List.pairwise_cons]
      constructor
      · -- the first entry is no later than every other entry
        intro a ha
        rcases List.mem_append.mp ha with ha | ha
        · obtain ⟨i, _, hfi⟩ := List.mem_map.mp ha
          obtain ⟨m, hmeq, hfm⟩ := hsel i
          obtain ⟨l1, l2, hdec, _, _⟩ := hfm
          have ham : a = m := by rw [← hfi, hmeq]
          have : a ∈ rest := by
            rw [ham, hdec]
            simp
          exact sorted_head_le hsort (List.mem_cons_of_mem r0 this)
        · simp only [List.mem_singleton] at ha
          subst ha
          exact sorted_le_getLast hsort (List.mem_cons_self r0 rest) (List.cons_ne_nil r0 rest)
      · rw [List.pairwise_append]
        refine ⟨?_, by simp, ?_⟩
        · -- middles are pairwise nondecreasing: target monotonicity
          rw [List.pairwise_map]
          refine List.Pairwise.imp ?_ (List.pairwise_lt_range' 1 (n - 2) 1)
          intro i j hij
          obtain ⟨mi, hmieq, hmi⟩ := hsel i
          obtain ⟨mj, hmjeq, hmj⟩ := hsel j
          rw [hmieq, hmjeq]
          exact firstMinimal_mono effDate htail
            (slotTarget_mono _ _ n hn hd (le_of_lt hij)) hmi hmj
        · -- every middle is no later than the last entry
          intro a ha b hb
          simp only [List.mem_singleton] at hb
          subst hb
          obtain ⟨i, _, hfi⟩ := List.mem_map.mp ha
          obtain ⟨m, hmeq, hfm⟩ := hsel i
          obtain ⟨l1, l2, hdec, _, _⟩ := hfm
          have ham : a = m := by rw [← hfi, hmeq]
          have : a ∈ rest := by
            rw [ham, hdec]
            simp
          exact sorted_le_getLast hsort (List.mem_cons_of_mem r0 this) (List.cons_ne_nil r0 rest)

theorem get_releases_pairwise (fetched : List Release) (n : ℕ) :
    (get_releases fetched true true n).Pairwise dateLE := by
  rw [get_releases]
  simp only [if_true]
  split
  · next h =>
    exact timeSpace_pairwise _ n (List.sorted_insertionSort dateLE _) h.2
  · exact List.sorted_insertionSort dateLE _

/-! ## Store bookkeeping lemmas -/

theorem alookup_filter_ne (l : List (String × List MatrixRow)) (key k : String) :
    alookup (l.filter (fun p => p.1 ≠ key)) k = if k = key then none else alookup l k := by
  induction l with
  | nil => simp [alookup]
  | cons p rest ih =>
    by_cases hp : p.1 = key <;> by_cases hk : k = key <;> by_cases hpk : p.1 = k <;>
      simp_all [List.filter_cons, alookup]

theorem alookup_update_self (l : List (String × List MatrixRow)) (key : String) (row : MatrixRow) :
    alookup (l.map (fun p => if p.1 = key then (p.1, p.2 ++ [row]) else p)) key =
      (alookup l key).map (· ++ [row]) := by
  induction l with
  | nil => simp [alookup]
  | cons p rest ih =>
    by_cases hp : p.1 = key <;> simp_all [alookup]

theorem alookup_update_other (l : List (String × List MatrixRow)) (key k : String)
    (row : MatrixRow) (hk : k ≠ key) :
    alookup (l.map (fun p => if p.1 = key then (p.1, p.2 ++ [row]) else p)) k = alookup l k := by
  induction l with
  | nil => simp [alookup]
  | cons p rest ih =>
    by_cases hp : p.1 = key <;> by_cases hpk : p.1 = k <;> simp_all [alookup]

theorem alookup_append_right_single {α : Type} (l : List (String × α)) (key k : String)
    (v : α) (h : alookup l k = none) :
    alookup (l ++ [(key, v)]) k = if key = k then some v else none := by
  induction l with
  | nil => simp [alookup]
  | cons p rest ih =>
    rw [alookup] at h
    rcases (em (p.1 = k)) with hkp | hkp
    · rw [if_pos hkp] at h
      exact absurd h (by simp)
    · rw [if_neg hkp] at h
      rw [List.cons_append, alookup, if_neg hkp]
      exact ih h

theorem alookup_append_left {α : Type} (l l' : List (String × α)) (k : String)
    {v : α} (h : alookup l k = some v) :
    alookup (l ++ l') k = some v := by
  induction l with
  | nil => simp [alookup] at h
  | cons p rest ih =>
    rw [alookup] at h
    rw [List.cons_append, alookup]
    rcases (em (p.1 = k)) with hkp | hkp
    · rw [if_pos hkp] at h ⊢
      exact h
    · rw [if_neg hkp] at h ⊢
      exact ih h

theorem storeAddRow_lookup_self (s : Store) (key : String) (row : MatrixRow) :
    alookup (storeAddRow s key row).language_matrices key =
      some ((alookup s.language_matrices key).getD [] ++ [row]) := by
  rw [storeAddRow]
  rcases h : alookup s.language_matrices key with _ | m
  · simp only [h, Option.isSome_none, Bool.false_eq_true, if_false]
    rw [alookup_append_right_single _ _ _ _ h, if_pos rfl]
    simp
  · simp only [h, Option.isSome_some, if_true]
    rw [alookup_update_self, h]
    simp

theorem storeAddRow_lookup_other (s : Store) (key k : String) (row : MatrixRow) (hk : k ≠ key) :
    alookup (storeAddRow s key row).language_matrices k = alookup s.language_matrices k := by
  rw [storeAddRow]
  rcases h : (alookup s.language_matrices key).isSome with _ | _
  · simp only [h, Bool.false_eq_true, if_false]
    rcases hlk : alookup s.language_matrices k with _ | m
    · rw [alookup_append_right_single _ _ _ _ hlk, if_neg (fun hh => hk hh.symm)]
    · rw [alookup_append_left _ _ _ hlk]
  · simp only [h, if_true]
    exact alookup_update_other _ _ _ _ hk

theorem setAdd_mem (l : List String) (k k' : String) :
    k ∈ setAdd l k' ↔ k ∈ l ∨ k = k' := by
  rw [setAdd]
  by_cases h : k' ∈ l
  · simp only [if_pos h]
    constructor
    · exact Or.inl
    · intro hh
      rcases hh with hh | hh
      · exact hh
      · rw [hh]
        exact h
  · simp [if_neg h]

/-! ## The store invariant -/

/-- The lockstep invariant of `RepositoriesAnalytics`: the summary
table, the language-matrix dictionary and the existence set hold exactly
the same repository keys, and every stored matrix is nonempty with rows
in ascending date order. -/
def StoreInv (s : Store) : Prop :=
  (∀ k, (∃ row ∈ s.repos_summary, row.name = k) ↔ k ∈ s.existing_repositories) ∧
  (∀ k, (alookup s.language_matrices k).isSome ↔ k ∈ s.existing_repositories) ∧
  (∀ k m, alookup s.language_matrices k = some m →
    m ≠ [] ∧ (m.map MatrixRow.date).Pairwise (· ≤ ·))

theorem storeInv_empty : StoreInv emptyStore := by
  refine ⟨?_, ?_, ?_⟩ <;> intro k <;> simp [emptyStore, alookup]

theorem delitem_inv {s s' : Store} {key : String} (h : delitem s key = .ok s')
    (hinv : StoreInv s) : StoreInv s' := by
  obtain ⟨h1, h2, h3⟩ := hinv
  rw [delitem] at h
  by_cases hmem : key ∈ s.existing_repositories
  · rw [if_pos hmem] at h
    rcases hsome : (alookup s.language_matrices key).isSome with _ | _
    · rw [hsome] at h
      simp at h
    · rw [hsome] at h
      simp only [if_true, Except.ok.injEq] at h
      subst h
      refine ⟨?_, ?_, ?_⟩
      · intro k
        simp only [List.mem_filter, decide_eq_true_eq]
        constructor
        · rintro ⟨row, ⟨hrow, hname⟩, hn⟩
          exact ⟨(h1 k).mp ⟨row, hrow, hn⟩, by rw [← hn]; exact hname⟩
        · rintro ⟨hk, hne⟩
          obtain ⟨row, hrow, hn⟩ := (h1 k).mpr hk
          exact ⟨row, ⟨hrow, by rw [hn]; exact hne⟩, hn⟩
      · intro k
        rw [alookup_filter_ne]
        by_cases hk : k = key
        · simp only [if_pos hk]
          simp [hk, List.mem_filter]
        · simp only [if_neg hk]
          rw [h2 k]
          simp [List.mem_filter, hk]
      · intro k m hm
        rw [alookup_filter_ne] at hm
        by_cases hk : k = key
        · rw [if_pos hk] at hm
          exact absurd hm (by simp)
        · rw [if_neg hk] at hm
          exact h3 k m hm
  · rw [if_neg hmem] at h
    simp only [Except.ok.injEq] at h
    subst h
    exact ⟨h1, h2, h3⟩

/-- A successfully built row is keyed by the release's published date,
which is then also its effective date. -/
theorem buildRow_date {tree : List TreeEntry} {r : Release} {row : MatrixRow}
    (h : buildRow tree r = .ok row) :
    r.published_at = some row.date ∧ row.date = effDate r := by
  rw [buildRow] at h
  split at h
  · exact absurd h (by simp)
  · rcases hpub : r.published_at with _ | d
    · rw [hpub] at h
      exact absurd h (by simp)
    · rw [hpub] at h
      simp only [Except.ok.injEq] at h
      subst h
      exact ⟨rfl, by rw [effDate, hpub]; rfl⟩

theorem forall₂_dates_map {rows : List MatrixRow} {rs : List Release}
    (h : List.Forall₂ (fun row r => row.date = effDate r) rows rs) :
    rows.map MatrixRow.date = rs.map effDate := by
  induction h with
  | nil => rfl
  | cons hd _ ih => simp [hd, ih]

theorem addRows_spec (rs : List Release) : ∀ (s : Store) (key : String)
    (trees : ℕ → List TreeEntry) (i : ℕ) {s' : Store},
    addRows s key rs trees i = .ok s' →
    s'.repos_summary = s.repos_summary ∧
    s'.existing_repositories = s.existing_repositories ∧
    (∀ k, k ≠ key → alookup s'.language_matrices k = alookup s.language_matrices k) ∧
    ∃ rows, rows.length = rs.length ∧
      List.Forall₂ (fun (row : MatrixRow) r => row.date = effDate r) rows rs ∧
      alookup s'.language_matrices key =
        (if rs.isEmpty then alookup s.language_matrices key
         else some ((alookup s.language_matrices key).getD [] ++ rows)) := by
  induction rs with
  | nil =>
    intro s key trees i s' h
    rw [addRows] at h
    simp only [Except.ok.injEq] at h
    subst h
    exact ⟨rfl, rfl, fun k _ => rfl, [], rfl, List.Forall₂.nil, by simp⟩
  | cons r rest ih =>
    intro s key trees i s' h
    rw [addRows] at h
    rcases hb : buildRow (trees i) r with e | row
    · rw [hb] at h
      exact absurd h (by simp)
    · rw [hb] at h
      obtain ⟨hsum, hex, hother, rows1, hlen1, hfa1, hlook1⟩ := ih _ key trees (i + 1) h
      refine ⟨by rw [hsum]; rfl, by rw [hex]; rfl, ?_, row :: rows1, by simp [hlen1], ?_, ?_⟩
      · intro k hk
        rw [hother k hk, storeAddRow_lookup_other s key k row hk]
      · exact List.Forall₂.cons (buildRow_date hb).2 hfa1
      · rcases hre : rest.isEmpty with _ | _
        · rw [hre] at hlook1
          simp only [Bool.false_eq_true, if_false] at hlook1
          rw [hlook1, storeAddRow_lookup_self]
          simp only [List.isEmpty_cons, Bool.false_eq_true, if_false, Option.getD_some]
          rw [List.append_assoc]
          rfl
        · rw [hre] at hlook1
          simp only [if_true] at hlook1
          have hrest0 : rest = [] := List.isEmpty_iff.mp hre
          subst hrest0
          have hr0 : rows1 = [] := List.length_eq_zero.mp (by simpa using hlen1)
          subst hr0
          rw [hlook1, storeAddRow_lookup_self]
          simp

theorem delitem_lookup_none {s s' : Store} {key : String} (h : delitem s key = .ok s')
    (hinv : StoreInv s) : alookup s'.language_matrices key = none := by
  rw [delitem] at h
  by_cases hmem : key ∈ s.existing_repositories
  · rw [if_pos hmem] at h
    rcases hsome : (alookup s.language_matrices key).isSome with _ | _
    · rw [hsome] at h
      simp at h
    · rw [hsome] at h
      simp only [if_true, Except.ok.injEq] at h
      subst h
      rw [alookup_filter_ne, if_pos rfl]
  · rw [if_neg hmem] at h
    simp only [Except.ok.injEq] at h
    subst h
    rcases hl : alookup s.language_matrices key with _ | m
    · rfl
    · exact absurd ((hinv.2.1 key).mp (by rw [hl]; rfl)) hmem

theorem add_language_matrix_spec {s1 s2 : Store} {key : String} {fetched : List Release}
    {n : ℕ} {trees : ℕ → List TreeEntry} {any : Bool}
    (h : add_language_matrix s1 key fetched n trees = .ok (s2, any))
    (hnone1 : alookup s1.language_matrices key = none) :
    s2.repos_summary = s1.repos_summary ∧
    s2.existing_repositories = s1.existing_repositories ∧
    (∀ k, k ≠ key → alookup s2.language_matrices k = alookup s1.language_matrices k) ∧
    (any = false → s2 = s1) ∧
    (any = true → ∃ rows, rows ≠ [] ∧
      rows.length = (get_releases fetched true true n).length ∧
      List.Forall₂ (fun (row : MatrixRow) r => row.date = effDate r) rows
        (get_releases fetched true true n) ∧
      (rows.map MatrixRow.date).Pairwise (· ≤ ·) ∧
      alookup s2.language_matrices key = some rows) := by
  rw [add_language_matrix] at h
  rcases hemp : (get_releases fetched true true n).isEmpty with _ | _
  · rw [hemp] at h
    simp only [Bool.false_eq_true, if_false] at h
    rcases hadd : addRows s1 key (get_releases fetched true true n) trees 0 with e | s2'
    · rw [hadd] at h
      exact absurd h (by simp)
    · rw [hadd] at h
      simp only [Except.ok.injEq, Prod.mk.injEq] at h
      obtain ⟨rfl, rfl⟩ := h
      obtain ⟨hsum, hex, hother, rows, hlen, hfa, hlook⟩ := addRows_spec _ _ _ _ _ hadd
      rw [hemp] at hlook
      simp only [Bool.false_eq_true, if_false, hnone1, Option.getD_none, List.nil_append] at hlook
      refine ⟨hsum, hex, hother, by simp, ?_⟩
      intro _
      refine ⟨rows, ?_, hlen, hfa, ?_, hlook⟩
      · intro hcon
        subst hcon
        have h0 : (get_releases fetched true true n).length = 0 := by
          rw [← hlen]
          rfl
        rw [List.length_eq_zero] at h0
        rw [h0] at hemp
        simp at hemp
      · rw [forall₂_dates_map hfa]
        exact List.pairwise_map.mpr (get_releases_pairwise fetched n)
  · rw [hemp] at h
    simp only [if_true, Except.ok.injEq, Prod.mk.injEq] at h
    obtain ⟨rfl, rfl⟩ := h
    exact ⟨rfl, rfl, fun k _ => rfl, fun _ => rfl, by simp⟩

theorem processRepo_inv {s s' : Store} {t : RepoTask} {update : Bool} {n : ℕ} {b : Bool}
    (h : processRepo s t update n = .ok (s', b)) (hinv : StoreInv s) : StoreInv s' := by
  rw [processRepo] at h
  split at h
  · have hp : (s, false) = (s', b) := Except.ok.inj h
    injection hp with h1 h2
    rw [← h1]
    exact hinv
  · rename_i hskip
    split at h
    · exact Except.noConfusion h
    · rename_i s1 hdel
      have hinv1 : StoreInv s1 := by
        rcases update with _ | _
        · simp only [Bool.false_eq_true, if_false, Except.ok.injEq] at hdel
          rw [← hdel]
          exact hinv
        · simp only [if_true] at hdel
          exact delitem_inv hdel hinv
      have hnone1 : alookup s1.language_matrices t.repo.full_name = none := by
        rcases update with _ | _
        · simp only [Bool.false_eq_true, if_false, Except.ok.injEq] at hdel
          rw [← hdel]
          have hskip' : t.repo.full_name ∉ s.existing_repositories :=
            fun hmem => hskip ⟨hmem, by simp⟩
          rcases hl : alookup s.language_matrices t.repo.full_name with _ | m
          · rfl
          · exact absurd ((hinv.2.1 t.repo.full_name).mp (by rw [hl]; rfl)) hskip'
        · simp only [if_true] at hdel
          exact delitem_lookup_none hdel hinv
      split at h
      · exact Except.noConfusion h
      · rename_i s2 any halm
        obtain ⟨hsum, hex, hother, hfalse, htrue⟩ := add_language_matrix_spec halm hnone1
        split at h
        · rename_i hany
          have hanyF : any = false := by
            revert hany
            rcases any <;> simp
          have hp : (s2, false) = (s', b) := Except.ok.inj h
          injection hp with h1 h2
          rw [← h1, hfalse hanyF]
          exact hinv1
        · rename_i hany
          have hanyT : any = true := by
            revert hany
            rcases any <;> simp
          obtain ⟨rows, hne, hlenr, hfa, hsorted, hlookkey⟩ := htrue hanyT
          simp only [Except.ok.injEq, Prod.mk.injEq] at h
          have hs' : s' = { repos_summary := s2.repos_summary ++ [mkSummaryRow t.repo t.counts]
                            language_matrices := s2.language_matrices
                            existing_repositories :=
                              setAdd s2.existing_repositories t.repo.full_name } := by
            rw [← h.1]
            rfl
          rw [hs']
          refine ⟨?_, ?_, ?_⟩
          · intro k
            simp only [List.mem_append, List.mem_singleton]
            rw [setAdd_mem]
            by_cases hk : k = t.repo.full_name
            · subst hk
              constructor
              · intro _
                exact Or.inr rfl
              · intro _
                exact ⟨mkSummaryRow t.repo t.counts, Or.inr rfl, rfl⟩
            · constructor
              · rintro ⟨row, hrow | hrow, hname⟩
                · rw [hex]
                  exact Or.inl ((hinv1.1 k).mp ⟨row, by rw [← hsum]; exact hrow, hname⟩)
                · rw [hrow] at hname
                  exact absurd hname (fun hh => hk hh.symm)
              · rintro (hmem | hkk)
                · rw [hex] at hmem
                  obtain ⟨row, hrow, hname⟩ := (hinv1.1 k).mpr hmem
                  exact ⟨row, Or.inl (by rw [hsum]; exact hrow), hname⟩
                · exact absurd hkk hk
          · intro k
            rw [setAdd_mem]
            by_cases hk : k = t.repo.full_name
            · subst hk
              rw [hlookkey]
              simp
            · rw [hother k hk]
              constructor
              · intro hh
                rw [hex]
                exact Or.inl ((hinv1.2.1 k).mp hh)
              · rintro (hmem | hkk)
                · rw [hex] at hmem
                  exact (hinv1.2.1 k).mpr hmem
                · exact absurd hkk hk
          · intro k m hm
            by_cases hk : k = t.repo.full_name
            · subst hk
              rw [hlookkey] at hm
              simp only [Option.some.injEq] at hm
              subst hm
              exact ⟨hne, hsorted⟩
            · rw [hother k hk] at hm
              exact hinv1.2.2 k m hm

theorem collect_go_inv {update : Bool} {n : ℕ} :
    ∀ (ts : List RepoTask) (s : Store) (c0 : ℕ) {p' : Store × ℕ},
    (ts.foldlM (fun (acc : Store × ℕ) t =>
      match processRepo acc.1 t update n with
      | Except.error e => (Except.error e : Except PyError (Store × ℕ))
      | Except.ok (s', processed) =>
        Except.ok (s', acc.2 + if processed then 1 else 0)) (s, c0)) = Except.ok p' →
    StoreInv s → StoreInv p'.1 := by
  intro ts
  induction ts with
  | nil =>
    intro s c0 p' h hinv
    simp only [List.foldlM_nil, pure, Except.pure, Except.ok.injEq] at h
    rw [← h]
    exact hinv
  | cons t ts ih =>
    intro s c0 p' h hinv
    rw [List.foldlM_cons] at h
    rcases hp : processRepo s t update n with e | sb
    · rw [hp] at h
      exact absurd h (by simp [Bind.bind, Except.bind])
    · rw [hp] at h
      obtain ⟨s1, processed⟩ := sb
      simp only [Bind.bind, Except.bind] at h
      exact ih s1 _ h (processRepo_inv hp hinv)

theorem collect_inv {s : Store} {tasks : List RepoTask} {update : Bool} {maxR n : ℕ}
    {p' : Store × ℕ}
    (h : collect_repository_data_for_search s tasks update maxR n = .ok p')
    (hinv : StoreInv s) : StoreInv p'.1 := by
  rw [collect_repository_data_for_search] at h
  exact collect_go_inv _ s 0 h hinv

theorem runOps_inv : ∀ (ops : List StoreOp) {s s' : Store},
    runOps s ops = .ok s' → StoreInv s → StoreInv s' := by
  intro ops
  induction ops with
  | nil =>
    intro s s' h hinv
    rw [runOps] at h
    simp only [Except.ok.injEq] at h
    rw [← h]
    exact hinv
  | cons op rest ih =>
    intro s s' h hinv
    rw [runOps] at h
    rcases hstep : runStep s op with e | s1
    · rw [hstep] at h
      exact absurd h (by simp)
    · rw [hstep] at h
      refine ih h ?_
      rcases op with ⟨tasks, update, maxR, nR⟩ | key
      · rw [runStep] at hstep
        rcases hc : collect_repository_data_for_search s tasks update maxR nR with e | p'
        · rw [hc] at hstep
          exact absurd hstep (by simp)
        · rw [hc] at hstep
          simp only [Except.ok.injEq] at hstep
          rw [← hstep]
          exact collect_inv hc hinv
      · rw [runStep] at hstep
        exact delitem_inv hstep hinv

/-! ## Claim C1: summary / language-matrix lockstep -/

/-- C1: every sequence of collection and deletion operations that
completes without an exception keeps the summary table and the
language-matrix collection in lockstep: a repository key has a summary
row iff it has a language-matrix entry and is in the existing-keys
index; moreover every summary row's repository owns at least one
language-matrix row (a summary row is never added without a matrix row
having been produced first). -/
theorem collect_delete_lockstep (ops : List StoreOp) (s : Store)
    (h : runOps emptyStore ops = .ok s) :
    (∀ k, (∃ row ∈ s.repos_summary, row.name = k) ↔
      ((alookup s.language_matrices k).isSome ∧ k ∈ s.existing_repositories)) ∧
    (∀ row ∈ s.repos_summary, ∃ m, alookup s.language_matrices row.name = some m ∧ m ≠ []) := by
  have hinv : StoreInv s := runOps_inv ops h storeInv_empty
  constructor
  · intro k
    rw [hinv.1 k, hinv.2.1 k]
    exact ⟨fun hh => ⟨hh, hh⟩, fun hh => hh.2⟩
  · intro row hrow
    have hmem : row.name ∈ s.existing_repositories := (hinv.1 row.name).mp ⟨row, hrow, rfl⟩
    obtain ⟨m, hm⟩ := Option.isSome_iff_exists.mp ((hinv.2.1 row.name).mpr hmem)
    exact ⟨m, hm, (hinv.2.2 row.name m hm).1⟩

/-- A single stable release used by the store witnesses. -/
def wRelease : Release := ⟨"v1", some 10, 10, false, false⟩

/-- The repository record used by the C1 witness. -/
def c1repo : RepoData := ⟨"octo/repo", "octo", "repo", 5, 6, 120, 7, 8, "main", ["demo"]⟩

/-- The collection task used by the C1 witness. -/
def c1task : RepoTask :=
  ⟨c1repo, [wRelease], fun _ => [⟨"blob", "main.py", 500⟩], ⟨3, 1, 2, 9, 4⟩⟩

/-- The operation history of the C1 witness. -/
def c1ops : List StoreOp :=
  [StoreOp.collect [c1task] false 1000 12, StoreOp.delete "absent/key"]

/-- The store the C1 witness history produces. -/
def c1result : Store :=
  match runOps emptyStore c1ops with
  | .ok s => s
  | .error _ => emptyStore

set_option maxRecDepth 10000 in
/-- Witness for C1: a concrete exception-free history. -/
theorem collect_delete_lockstep_witness :
    runOps emptyStore c1ops = .ok c1result ∧
    ((∀ k, (∃ row ∈ c1result.repos_summary, row.name = k) ↔
      ((alookup c1result.language_matrices k).isSome ∧ k ∈ c1result.existing_repositories)) ∧
    (∀ row ∈ c1result.repos_summary,
      ∃ m, alookup c1result.language_matrices row.name = some m ∧ m ≠ [])) :=
  ⟨by decide, collect_delete_lockstep c1ops c1result (by decide)⟩

/-! ## Claim C4: row ordering and duplicates -/

/-- Five distinct stable releases whose middle slots both select the
day-98 release. -/
def c4rs : List Release :=
  [⟨"a", some 0, 0, false, false⟩, ⟨"b", some 98, 98, false, false⟩,
   ⟨"c", some 99, 99, false, false⟩, ⟨"d", some 100, 100, false, false⟩,
   ⟨"e", some 100, 100, false, false⟩]

set_option maxRecDepth 10000 in
/-- Counterexample to C4 as stated: on a sorted list of five distinct
releases the time-spaced selection with `targetCount = 4` returns the
day-98 release in two output positions, so a release can contribute two
rows and the selection is not duplicate-free. -/
theorem timeSpace_duplicate_counterexample :
    c4rs.Pairwise dateLE ∧ c4rs.Nodup ∧ 4 < c4rs.length ∧
    get_releases c4rs true true 4 =
      [⟨"a", some 0, 0, false, false⟩, ⟨"b", some 98, 98, false, false⟩,
       ⟨"b", some 98, 98, false, false⟩, ⟨"e", some 100, 100, false, false⟩] ∧
    ¬ (get_releases c4rs true true 4).Nodup := by
  refine ⟨by decide, by decide, by decide, by decide, by decide⟩

/-- C4 (amended): the rows of every language matrix are in ascending
(non-strict) date order and exactly one row is appended per element of
the sampled selection, in selection order; however the time-spaced
selection may return the same release in two output positions, so one
release can contribute more than one (equal-dated) row. -/
theorem matrix_rows_ordered_amended :
    (∀ (fetched : List Release) (n : ℕ),
      ((get_releases fetched true true n).map effDate).Pairwise (· ≤ ·)) ∧
    (∀ (s1 s2 : Store) (key : String) (fetched : List Release) (n : ℕ)
        (trees : ℕ → List TreeEntry),
      alookup s1.language_matrices key = none →
      add_language_matrix s1 key fetched n trees = .ok (s2, true) →
      ∃ rows, alookup s2.language_matrices key = some rows ∧
        rows.length = (get_releases fetched true true n).length ∧
        List.Forall₂ (fun (row : MatrixRow) r => row.date = effDate r) rows
          (get_releases fetched true true n)) ∧
    (∀ (ops : List StoreOp) (s : Store), runOps emptyStore ops = .ok s →
      ∀ k m, alookup s.language_matrices k = some m →
        m ≠ [] ∧ (m.map MatrixRow.date).Pairwise (· ≤ ·)) := by
  refine ⟨?_, ?_, ?_⟩
  · intro fetched n
    exact List.pairwise_map.mpr (get_releases_pairwise fetched n)
  · intro s1 s2 key fetched n trees hnone h
    obtain ⟨_, _, _, _, htrue⟩ := add_language_matrix_spec h hnone
    obtain ⟨rows, _, hlen, hfa, _, hlook⟩ := htrue rfl
    exact ⟨rows, hlook, hlen, hfa⟩
  · intro ops s h k m hm
    exact (runOps_inv ops h storeInv_empty).2.2 k m hm

/-- The store produced by the C4 witness call. -/
def c4s2 : Store :=
  match add_language_matrix emptyStore "octo/repo" [wRelease] 12 (fun _ => [⟨"blob", "main.py", 500⟩]) with
  | .ok (s, _) => s
  | .error _ => emptyStore

set_option maxRecDepth 10000 in
/-- Witness for the amended C4 at a concrete input. -/
theorem matrix_rows_ordered_amended_witness :
    (((get_releases [wRelease] true true 12).map effDate).Pairwise (· ≤ ·)) ∧
    (∃ rows, alookup c4s2.language_matrices "octo/repo" = some rows ∧
      rows.length = (get_releases [wRelease] true true 12).length ∧
      List.Forall₂ (fun (row : MatrixRow) r => row.date = effDate r) rows
        (get_releases [wRelease] true true 12)) :=
  ⟨matrix_rows_ordered_amended.1 [wRelease] 12,
   matrix_rows_ordered_amended.2.1 emptyStore c4s2 "octo/repo" [wRelease] 12
     (fun _ => [⟨"blob", "main.py", 500⟩]) (by decide) (by decide)⟩

/-! ## Byte accounting for the row builder -/

/-- A tree entry that the size loop counts: a blob with a
supported-language extension. -/
def countedFile (f : TreeEntry) : Prop :=
  f.type = "blob" ∧ SUPPORTED_LANGUAGES.contains (splitextExt f.path) = true

instance : DecidablePred countedFile := fun f =>
  inferInstanceAs (Decidable (f.type = "blob" ∧ _ = true))

/-- The counted bytes a tree holds in blobs of one exact extension. -/
def countedExtBytes (tree : List TreeEntry) (x : String) : ℕ :=
  ((tree.filter (fun f => countedFile f ∧ splitextExt f.path = x)).map (·.size)).sum

/-- The grand total of counted bytes of a tree. -/
def totalBytes (tree : List TreeEntry) : ℕ :=
  ((tree.filter (fun f => countedFile f)).map (·.size)).sum

theorem alookup_eq_none_iff {α : Type} (l : List (String × α)) (x : String) :
    alookup l x = none ↔ x ∉ l.map (·.1) := by
  induction l with
  | nil => simp [alookup]
  | cons p rest ih =>
    rw [alookup]
    by_cases hp : p.1 = x
    · simp [hp]
    · simp only [if_neg hp, List.map_cons, List.mem_cons, ih]
      constructor
      · rintro h (h1 | h1)
        · exact hp h1.symm
        · exact h h1
      · intro h
        exact fun h1 => h (Or.inr h1)

theorem map_fst_update (l : List (String × ℕ)) (e : String) (sz : ℕ) :
    ((l.map (fun p => if p.1 = e then (p.1, p.2 + sz) else p)).map (·.1)) = l.map (·.1) := by
  induction l with
  | nil => rfl
  | cons p rest ih =>
    simp only [List.map_cons]
    by_cases hp : p.1 = e
    · rw [if_pos hp]
      simp [ih]
    · rw [if_neg hp]
      simp [ih]

theorem map_update_id_of_not_mem (l : List (String × ℕ)) (e : String) (sz : ℕ)
    (h : e ∉ l.map (·.1)) :
    l.map (fun p => if p.1 = e then (p.1, p.2 + sz) else p) = l := by
  induction l with
  | nil => rfl
  | cons p rest ih =>
    simp only [List.map_cons, List.mem_cons] at h
    push_neg at h
    rw [List.map_cons, if_neg (fun hh => h.1 hh.symm), ih h.2]

theorem alookup_map_update_isSome (e : String) (sz : ℕ) :
    ∀ (l : List (String × ℕ)) (x : String),
    (alookup (l.map (fun p => if p.1 = e then (p.1, p.2 + sz) else p)) x).isSome =
      (alookup l x).isSome := by
  intro l x
  induction l with
  | nil => rfl
  | cons p rest ih =>
    by_cases hpe : p.1 = e <;> by_cases hpx : p.1 = x <;> simp_all [alookup]

theorem alookup_isSome_of_none_elim {α : Type} {acc : List (String × α)} {e : String}
    (h : ¬(alookup acc e).isSome = true) : alookup acc e = none := by
  rcases hl : alookup acc e with _ | v
  · rfl
  · rw [hl] at h
    simp at h

/-- `addSize` keeps the key list duplicate-free. -/
theorem addSize_keys_nodup {acc : List (String × ℕ)} (hnd : (acc.map (·.1)).Nodup)
    (e : String) (sz : ℕ) : (((addSize acc e sz).map (·.1))).Nodup := by
  rw [addSize]
  rcases h : (alookup acc e).isSome with _ | _
  · simp only [h, Bool.false_eq_true, if_false]
    have he : e ∉ acc.map (·.1) := by
      rw [← alookup_eq_none_iff]
      exact alookup_isSome_of_none_elim (by rw [h]; simp)
    simp only [List.map_append, List.map_cons, List.map_nil]
    rw [List.nodup_append]
    refine ⟨hnd, List.nodup_singleton e, ?_⟩
    intro a ha hb
    simp only [List.mem_singleton] at hb
    subst hb
    exact he ha
  · simp only [h, if_true]
    rw [map_fst_update]
    exact hnd

/-- Looking up after `addSize`, with a default of zero. -/
theorem alookup_addSize (acc : List (String × ℕ)) (hnd : (acc.map (·.1)).Nodup)
    (e x : String) (sz : ℕ) :
    (alookup (addSize acc e sz) x).getD 0 =
      (alookup acc x).getD 0 + (if e = x then sz else 0) := by
  rw [addSize]
  rcases h : (alookup acc e).isSome with _ | _
  · simp only [h, Bool.false_eq_true, if_false]
    have he : alookup acc e = none := alookup_isSome_of_none_elim (by rw [h]; simp)
    rcases hx : alookup acc x with _ | v
    · rw [alookup_append_right_single _ _ _ _ hx]
      by_cases hex : e = x
      · simp [hex]
      · simp [hex]
    · rw [alookup_append_left _ _ _ hx]
      have hex : ¬(e = x) := by
        intro hh
        rw [hh, hx] at he
        exact Option.noConfusion he
      simp [hex]
  · simp only [h, if_true]
    induction acc with
    | nil => simp [alookup] at h
    | cons p rest ih =>
      rw [alookup] at h
      simp only [List.map_cons, List.nodup_cons] at hnd
      by_cases hpe : p.1 = e
      · simp only [List.map_cons, if_pos hpe, alookup]
        by_cases hpx : p.1 = x
        · rw [if_pos hpx, if_pos hpx]
          have hex : e = x := by rw [← hpe, hpx]
          simp [hex]
        · rw [if_neg hpx, if_neg hpx]
          have hex : ¬(e = x) := fun hh => hpx (by rw [hpe, hh])
          simp only [if_neg hex, add_zero]
          have hnot : e ∉ rest.map (·.1) := by
            rw [← hpe]
            exact hnd.1
          rw [map_update_id_of_not_mem rest e sz hnot]
      · rw [if_neg hpe] at h
        simp only [List.map_cons, if_neg hpe, alookup]
        by_cases hpx : p.1 = x
        · rw [if_pos hpx, if_pos hpx]
          have hex : ¬(e = x) := fun hh => hpe (hpx.trans hh.symm)
          simp [hex]
        · rw [if_neg hpx, if_neg hpx]
          exact ih hnd.2 h

/-- The total after `addSize` grows by exactly the added size. -/
theorem sum_addSize (acc : List (String × ℕ)) (hnd : (acc.map (·.1)).Nodup)
    (e : String) (sz : ℕ) :
    ((addSize acc e sz).map (·.2)).sum = (acc.map (·.2)).sum + sz := by
  rw [addSize]
  rcases h : (alookup acc e).isSome with _ | _
  · simp [h]
  · simp only [h, if_true]
    induction acc with
    | nil => simp [alookup] at h
    | cons p rest ih =>
      rw [alookup] at h
      simp only [List.map_cons, List.nodup_cons] at hnd
      by_cases hpe : p.1 = e
      · simp only [List.map_cons, if_pos hpe, List.sum_cons]
        have hnot : e ∉ rest.map (·.1) := by
          rw [← hpe]
          exact hnd.1
        rw [map_update_id_of_not_mem rest e sz hnot]
        omega
      · rw [if_neg hpe] at h
        simp only [List.map_cons, if_neg hpe, List.sum_cons]
        rw [ih hnd.2 h]
        omega

/-- `addSize` makes exactly the added key present. -/
theorem addSize_isSome (acc : List (String × ℕ)) (e x : String) (sz : ℕ) :
    (alookup (addSize acc e sz) x).isSome ↔ ((alookup acc x).isSome ∨ x = e) := by
  rw [addSize]
  rcases h : (alookup acc e).isSome with _ | _
  · simp only [h, Bool.false_eq_true, if_false]
    have he : alookup acc e = none := alookup_isSome_of_none_elim (by rw [h]; simp)
    rcases hx : alookup acc x with _ | v
    · rw [alookup_append_right_single _ _ _ _ hx]
      by_cases hex : e = x
      · simp [hex]
      · rw [if_neg hex]
        simp only [Option.isSome_none, Bool.false_eq_true, false_iff]
        rintro (hh | hh)
        · exact hh.elim
        · exact hex hh.symm
    · rw [alookup_append_left _ _ _ hx]
      simp
  · simp only [h, if_true]
    rw [alookup_map_update_isSome]
    constructor
    · intro hh
      exact Or.inl hh
    · rintro (hh | hh)
      · exact hh
      · rw [hh]
        exact h

theorem countedExtBytes_cons (f : TreeEntry) (rest : List TreeEntry) (x : String) :
    countedExtBytes (f :: rest) x =
      (if countedFile f ∧ splitextExt f.path = x then f.size else 0)
        + countedExtBytes rest x := by
  rw [countedExtBytes, countedExtBytes, List.filter_cons]
  by_cases h : countedFile f ∧ splitextExt f.path = x
  · simp [h]
  · simp [h]

theorem totalBytes_cons (f : TreeEntry) (rest : List TreeEntry) :
    totalBytes (f :: rest) = (if countedFile f then f.size else 0) + totalBytes rest := by
  rw [totalBytes, totalBytes, List.filter_cons]
  by_cases h : countedFile f
  · simp [h]
  · simp [h]

/-- The size-accumulation fold of `computeFileSizes` with an explicit
starting accumulator, for reasoning by induction. -/
def sizesGo (acc : List (String × ℕ)) (tree : List TreeEntry) : List (String × ℕ) :=
  tree.foldl (fun acc f =>
    if f.type = "blob" then
      let ext := splitextExt f.path
      if SUPPORTED_LANGUAGES.contains ext then addSize acc ext f.size else acc
    else acc) acc

theorem computeFileSizes_eq_sizesGo (tree : List TreeEntry) :
    computeFileSizes tree = sizesGo [] tree := rfl

theorem sizesGo_cons (f : TreeEntry) (rest : List TreeEntry) (acc : List (String × ℕ)) :
    sizesGo acc (f :: rest)
      = sizesGo (if countedFile f then addSize acc (splitextExt f.path) f.size else acc)
          rest := by
  simp only [sizesGo, List.foldl_cons]
  congr 1
  by_cases hb : f.type = "blob" <;>
    by_cases hs : SUPPORTED_LANGUAGES.contains (splitextExt f.path) = true <;>
    simp [countedFile, hb, hs]

/-- The fold behind `computeFileSizes`: the keys stay duplicate-free, each
extension's bucket grows by exactly the counted bytes of that extension,
and the grand total grows by exactly the counted bytes of the tree. -/
theorem sizesGo_spec (tree : List TreeEntry) :
    ∀ acc : List (String × ℕ), (acc.map (·.1)).Nodup →
      ((sizesGo acc tree).map (·.1)).Nodup
      ∧ (∀ x, (alookup (sizesGo acc tree) x).getD 0
            = (alookup acc x).getD 0 + countedExtBytes tree x)
      ∧ ((sizesGo acc tree).map (·.2)).sum = (acc.map (·.2)).sum + totalBytes tree := by
  induction tree with
  | nil =>
    intro acc hnd
    refine ⟨hnd, ?_, ?_⟩ <;> simp [sizesGo, countedExtBytes, totalBytes]
  | cons f rest ih =>
    intro acc hnd
    rw [sizesGo_cons]
    by_cases hcf : countedFile f
    · rw [if_pos hcf]
      obtain ⟨ihnd, ihget, ihsum⟩ :=
        ih (addSize acc (splitextExt f.path) f.size) (addSize_keys_nodup hnd _ _)
    
      refine ⟨ihnd, ?_, ?_⟩
      · intro x
        rw [ihget x, alookup_addSize acc hnd _ x f.size, countedExtBytes_cons]
        by_cases hx : splitextExt f.path = x
        · rw [if_pos hx, if_pos ⟨hcf, hx⟩]
          omega
        · rw [if_neg hx, if_neg (fun hh => hx hh.2)]
          omega
      · rw [ihsum, sum_addSize acc hnd, totalBytes_cons, if_pos hcf]
        omega
    · rw [if_neg hcf]
      obtain ⟨ihnd, ihget, ihsum⟩ := ih acc hnd
      refine ⟨ihnd, ?_, ?_⟩
      · intro x
        rw [ihget x, countedExtBytes_cons, if_neg (fun hh => hcf hh.1)]
        omega
      · rw [ihsum, totalBytes_cons, if_neg hcf]
        omega

/-- Entries that are not counted (non-blobs, unsupported extensions) are
invisible to the size fold. -/
theorem sizesGo_filter (tree : List TreeEntry) :
    ∀ acc, sizesGo acc (tree.filter (fun f => countedFile f)) = sizesGo acc tree := by
  induction tree with
  | nil => intro acc; rfl
  | cons f rest ih =>
    intro acc
    rw [List.filter_cons]
    by_cases hcf : countedFile f
    · rw [if_pos (by simpa using hcf)]
      rw [sizesGo_cons, sizesGo_cons, if_pos hcf, ih]
    · rw [if_neg (by simpa using hcf)]
      rw [sizesGo_cons, if_neg hcf, ih]

theorem computeFileSizes_filter (tree : List TreeEntry) :
    computeFileSizes (tree.filter (fun f => countedFile f)) = computeFileSizes tree := by
  rw [computeFileSizes_eq_sizesGo, computeFileSizes_eq_sizesGo, sizesGo_filter]

/-- Banker's rounding lands within half a unit of its argument. -/
theorem roundHalfEven_abs_le (q : ℚ) : |((roundHalfEven q : ℤ) : ℚ) - q| ≤ 1/2 := by
  rw [roundHalfEven]
  have h1 : ((⌊q⌋ : ℤ) : ℚ) ≤ q := Int.floor_le q
  have h2 : q < ((⌊q⌋ : ℤ) : ℚ) + 1 := Int.lt_floor_add_one q
  split_ifs with ha hb hc
  · rw [abs_le]
    constructor <;> linarith
  · rw [abs_le]
    push_cast
    constructor <;> linarith
  · rw [abs_le]
    constructor <;> linarith
  · rw [abs_le]
    push_cast
    constructor <;> linarith

/-- Rounding to 4 decimal places moves a value by at most `1/20000`. -/
theorem pyRound4_abs_le (q : ℚ) : |pyRound4 q - q| ≤ 1/20000 := by
  rw [pyRound4]
  have h := roundHalfEven_abs_le (q * 10000)
  rw [abs_le] at h ⊢
  obtain ⟨hl, hr⟩ := h
  constructor <;> linarith

theorem pyRound4_zero : pyRound4 0 = 0 := by decide

theorem list_sum_map_add_nat {α : Type} (l : List α) (f g : α → ℕ) :
    (l.map (fun x => f x + g x)).sum = (l.map f).sum + (l.map g).sum := by
  induction l with
  | nil => rfl
  | cons a t ih =>
    simp only [List.map_cons, List.sum_cons, ih]
    omega

theorem list_sum_map_sub {α : Type} (l : List α) (f g : α → ℚ) :
    (l.map (fun x => f x - g x)).sum = (l.map f).sum - (l.map g).sum := by
  induction l with
  | nil => simp
  | cons a t ih =>
    simp only [List.map_cons, List.sum_cons, ih]
    ring

theorem list_abs_sum_le {α : Type} (l : List α) (f : α → ℚ) :
    |(l.map f).sum| ≤ (l.map (fun x => |f x|)).sum := by
  induction l with
  | nil => simp
  | cons a t ih =>
    simp only [List.map_cons, List.sum_cons]
    calc |f a + (t.map f).sum| ≤ |f a| + |(t.map f).sum| := abs_add _ _
      _ ≤ |f a| + (t.map (fun x => |f x|)).sum := by linarith

theorem list_sum_le_const {α : Type} (l : List α) (f : α → ℚ) (c : ℚ)
    (h : ∀ x ∈ l, f x ≤ c) : (l.map f).sum ≤ l.length * c := by
  induction l with
  | nil => simp
  | cons a t ih =>
    simp only [List.map_cons, List.sum_cons, List.length_cons]
    have h1 := h a (List.mem_cons_self a t)
    have h2 := ih (fun x hx => h x (List.mem_cons_of_mem a hx))
    push_cast
    linarith

theorem list_sum_map_div {α : Type} (l : List α) (f : α → ℚ) (c : ℚ) :
    (l.map (fun x => f x / c)).sum = (l.map f).sum / c := by
  induction l with
  | nil => simp
  | cons a t ih =>
    simp only [List.map_cons, List.sum_cons, ih]
    ring

theorem list_sum_map_natCast {α : Type} (l : List α) (f : α → ℕ) :
    (l.map (fun x => ((f x : ℕ) : ℚ))).sum = (((l.map f).sum : ℕ) : ℚ) := by
  induction l with
  | nil => simp
  | cons a t ih =>
    simp only [List.map_cons, List.sum_cons, ih]
    push_cast
    ring

theorem list_sum_indicator_not_mem (L : List String) (e : String) (c : ℕ)
    (he : e ∉ L) : (L.map (fun x => if e = x then c else 0)).sum = 0 := by
  induction L with
  | nil => rfl
  | cons a t ih =>
    simp only [List.mem_cons] at he
    push_neg at he
    simp only [List.map_cons, List.sum_cons, if_neg he.1, ih he.2]

theorem list_sum_indicator_nodup (L : List String) (hnd : L.Nodup) (e : String)
    (he : e ∈ L) (c : ℕ) : (L.map (fun x => if e = x then c else 0)).sum = c := by
  induction L with
  | nil => cases he
  | cons a t ih =>
    rw [List.nodup_cons] at hnd
    simp only [List.map_cons, List.sum_cons]
    rcases List.mem_cons.mp he with h | h
    · rw [if_pos h, list_sum_indicator_not_mem t e c (h ▸ hnd.1)]
      omega
    · have hne : ¬(e = a) := fun hh => hnd.1 (hh ▸ h)
      rw [if_neg hne, ih hnd.2 h]
      omega

theorem supported_nodup : SUPPORTED_LANGUAGES.Nodup := by decide

/-- Summed over the distinct supported extensions, the per-extension byte
counts recover the grand total of counted bytes. -/
theorem sum_countedExtBytes (tree : List TreeEntry) :
    (SUPPORTED_LANGUAGES.map (fun x => countedExtBytes tree x)).sum = totalBytes tree := by
  induction tree with
  | nil => simp [countedExtBytes, totalBytes]
  | cons f rest ih =>
    have hpt : SUPPORTED_LANGUAGES.map (fun x => countedExtBytes (f :: rest) x)
        = SUPPORTED_LANGUAGES.map (fun x =>
            (if countedFile f ∧ splitextExt f.path = x then f.size else 0)
              + countedExtBytes rest x) := by
      apply List.map_congr_left
      intro x _
      exact countedExtBytes_cons f rest x
    have hind : (SUPPORTED_LANGUAGES.map (fun x =>
        if countedFile f ∧ splitextExt f.path = x then f.size else 0)).sum
        = (if countedFile f then f.size else 0) := by
      by_cases hcf : countedFile f
      · rw [if_pos hcf]
        have hmap : SUPPORTED_LANGUAGES.map (fun x =>
            if countedFile f ∧ splitextExt f.path = x then f.size else 0)
            = SUPPORTED_LANGUAGES.map (fun x =>
                if splitextExt f.path = x then f.size else 0) := by
          apply List.map_congr_left
          intro x _
          by_cases hx : splitextExt f.path = x
          · rw [if_pos hx, if_pos ⟨hcf, hx⟩]
          · rw [if_neg hx, if_neg (fun hh => hx hh.2)]
        have hin : splitextExt f.path ∈ SUPPORTED_LANGUAGES := by
          have h2 := hcf.2
          simpa using h2
        rw [hmap]
        exact list_sum_indicator_nodup SUPPORTED_LANGUAGES supported_nodup _ hin f.size
      · rw [if_neg hcf]
        have hmap : SUPPORTED_LANGUAGES.map (fun x =>
            if countedFile f ∧ splitextExt f.path = x then f.size else 0)
            = SUPPORTED_LANGUAGES.map (fun _ => 0) := by
          apply List.map_congr_left
          intro x _
          exact if_neg (fun hh => hcf hh.1)
        rw [hmap]
        simp
    rw [hpt, list_sum_map_add_nat, ih, totalBytes_cons, hind]

theorem alookup_norm (T : ℚ) :
    ∀ (l : List (String × ℕ)) (x : String),
    alookup (l.map (fun p => (p.1, pyRound4 ((p.2 : ℚ) / T)))) x
      = (alookup l x).map (fun v => pyRound4 ((v : ℚ) / T)) := by
  intro l x
  induction l with
  | nil => rfl
  | cons p rest ih =>
    by_cases hp : p.1 = x <;> simp [alookup, hp, ih]

/-- Shares of a produced row, in closed form: each supported extension's
column is the rounded ratio of its counted bytes to the grand total
(under Lean's `0/0 = 0` convention this also covers the all-zero row of a
tree with no counted files). -/
theorem buildRow_shares {tree : List TreeEntry} {r : Release} {d : Date} {row : MatrixRow}
    (hd : r.published_at = some d) (hok : buildRow tree r = .ok row) :
    row.shares = SUPPORTED_LANGUAGES.map
      (fun e => (e, pyRound4 ((countedExtBytes tree e : ℚ) / (totalBytes tree : ℚ)))) := by
  obtain ⟨hnd, hget, hsum⟩ := sizesGo_spec tree [] (by simp)
  rw [← computeFileSizes_eq_sizesGo] at hnd hget hsum
  simp only [alookup, Option.getD_none, Nat.zero_add, List.map_nil, List.sum_nil] at hget hsum
  rw [buildRow] at hok
  split at hok
  · exact absurd hok (by simp)
  · rw [hd] at hok
    simp only [Except.ok.injEq] at hok
    subst hok
    dsimp only
    apply List.map_congr_left
    intro e _
    refine Prod.ext rfl ?_
    dsimp only
    rw [alookup_norm]
    rcases hae : alookup (computeFileSizes tree) e with _ | v
    · have hge := hget e
      rw [hae] at hge
      have hc : countedExtBytes tree e = 0 := by simpa using hge.symm
      simp [hc, pyRound4_zero]
    · have hge := hget e
      rw [hae] at hge
      have hv : v = countedExtBytes tree e := by simpa using hge
      simp [hv, hsum]

/-- C5 amended: when no supported-extension file is present at all the
builder produces an all-zero row, but when supported files are present
totalling zero bytes the division by zero is unguarded and the
`ZeroDivisionError` reaches the caller. -/
theorem zero_supported_bytes_amended (tree : List TreeEntry) (r : Release) (d : Date)
    (hd : r.published_at = some d) :
    (computeFileSizes tree = [] →
        buildRow tree r = .ok ⟨d, SUPPORTED_LANGUAGES.map (fun e => (e, 0))⟩)
    ∧ (computeFileSizes tree ≠ [] → totalBytes tree = 0 →
        buildRow tree r = .error .zeroDivision) := by
  have hsum := (sizesGo_spec tree [] (by simp)).2.2
  rw [← computeFileSizes_eq_sizesGo] at hsum
  simp only [List.map_nil, List.sum_nil, Nat.zero_add] at hsum
  constructor
  · intro hfs
    rw [buildRow]
    rw [if_neg (fun hh => hh.1 hfs)]
    rw [hd, hfs]
    simp [alookup]
  · intro hfs hT0
    rw [buildRow]
    rw [if_pos ⟨hfs, by rw [hsum, hT0]⟩]

/-- A tree whose only file is a supported-extension blob of zero bytes:
the byte total over supported extensions is zero, yet building the row
raises `ZeroDivisionError` instead of omitting the row or producing an
all-zero one. -/
theorem divide_by_zero_counterexample :
    totalBytes [⟨"blob", "main.py", 0⟩] = 0
    ∧ buildRow [⟨"blob", "main.py", 0⟩] wRelease = Except.error PyError.zeroDivision := by
  constructor
  · decide
  · decide

/-- Witness for the amended C5 theorem: a tree holding only an
unsupported file accumulates nothing, and the built row is all-zero. -/
theorem zero_supported_bytes_amended_witness :
    wRelease.published_at = some 10
    ∧ buildRow [⟨"blob", "README", 1000⟩] wRelease
        = Except.ok ⟨10, SUPPORTED_LANGUAGES.map (fun e => (e, 0))⟩ :=
  ⟨rfl, (zero_supported_bytes_amended [⟨"blob", "README", 1000⟩] wRelease 10 rfl).1 (by decide)⟩

/-- The two-file tree of the language-share example: one supported
`main.py` of 500 bytes and one unsupported `README` of 1000 bytes. -/
def c6tree : List TreeEntry := [⟨"blob", "main.py", 500⟩, ⟨"blob", "README", 1000⟩]

/-- C6 amended: the row builder counts only supported-extension blobs
(dropping the others changes nothing, including the denominator), each
supported column is the counted bytes of its extension divided by the
grand total of counted bytes and rounded to 4 decimal places, and -
provided the counted bytes are not zero, since a tree of only zero-size
supported files raises `ZeroDivisionError` instead - the shares sum to 1
within the accumulated 4-decimal rounding tolerance. -/
theorem language_shares_amended (tree : List TreeEntry) (r : Release) (d : Date)
    (hd : r.published_at = some d) (hT : 0 < totalBytes tree) :
    ∃ row, buildRow tree r = .ok row
      ∧ buildRow (tree.filter (fun f => countedFile f)) r = .ok row
      ∧ row.shares = SUPPORTED_LANGUAGES.map
          (fun e => (e, pyRound4 ((countedExtBytes tree e : ℚ) / (totalBytes tree : ℚ))))
      ∧ |((row.shares.map (·.2)).sum : ℚ) - 1|
          ≤ (SUPPORTED_LANGUAGES.length : ℚ) / 20000 := by
  have hsum := (sizesGo_spec tree [] (by simp)).2.2
  rw [← computeFileSizes_eq_sizesGo] at hsum
  simp only [List.map_nil, List.sum_nil, Nat.zero_add] at hsum
  rcases hok : buildRow tree r with e | row
  · exfalso
    rw [buildRow] at hok
    split at hok
    · next hguard =>
      rw [hsum] at hguard
      omega
    · rw [hd] at hok
      exact Except.noConfusion hok
  · have hsh := buildRow_shares hd hok
    have hfil : buildRow (tree.filter (fun f => countedFile f)) r = buildRow tree r := by
      rw [buildRow, buildRow, computeFileSizes_filter]
    refine ⟨row, rfl, by rw [hfil, hok], hsh, ?_⟩
    rw [hsh, List.map_map]
    have hcomp : ((fun x : String × ℚ => x.2) ∘ fun e =>
        (e, pyRound4 ((countedExtBytes tree e : ℚ) / (totalBytes tree : ℚ))))
        = fun e => pyRound4 ((countedExtBytes tree e : ℚ) / (totalBytes tree : ℚ)) := rfl
    rw [hcomp]
    have hE : (SUPPORTED_LANGUAGES.map
        (fun e => ((countedExtBytes tree e : ℚ) / (totalBytes tree : ℚ)))).sum = 1 := by
      rw [list_sum_map_div, list_sum_map_natCast, sum_countedExtBytes]
      exact div_self (ne_of_gt (by exact_mod_cast hT))
    have hdiff : (SUPPORTED_LANGUAGES.map
        (fun e => pyRound4 ((countedExtBytes tree e : ℚ) / (totalBytes tree : ℚ)))).sum - 1
        = (SUPPORTED_LANGUAGES.map
            (fun e => pyRound4 ((countedExtBytes tree e : ℚ) / (totalBytes tree : ℚ))
              - (countedExtBytes tree e : ℚ) / (totalBytes tree : ℚ))).sum := by
      rw [list_sum_map_sub, hE]
    rw [hdiff]
    calc |(SUPPORTED_LANGUAGES.map
            (fun e => pyRound4 ((countedExtBytes tree e : ℚ) / (totalBytes tree : ℚ))
              - (countedExtBytes tree e : ℚ) / (totalBytes tree : ℚ))).sum|
        ≤ (SUPPORTED_LANGUAGES.map
            (fun e => |pyRound4 ((countedExtBytes tree e : ℚ) / (totalBytes tree : ℚ))
              - (countedExtBytes tree e : ℚ) / (totalBytes tree : ℚ)|)).sum :=
          list_abs_sum_le _ _
      _ ≤ (SUPPORTED_LANGUAGES.length : ℚ) * (1/20000) :=
          list_sum_le_const _ _ _ (fun e _ => pyRound4_abs_le _)
      _ = (SUPPORTED_LANGUAGES.length : ℚ) / 20000 := by ring

/-- A tree whose only file is supported yet empty: every file is counted,
but instead of a row whose shares sum to 1 the builder raises
`ZeroDivisionError`, so no row is produced at all. -/
theorem language_shares_counterexample :
    countedFile ⟨"blob", "main.py", 0⟩
    ∧ buildRow [⟨"blob", "main.py", 0⟩] wRelease = Except.error PyError.zeroDivision := by
  refine ⟨⟨rfl, by decide⟩, by decide⟩

set_option maxRecDepth 10000 in
/-- Witness for the amended C6 theorem at the claim's own example tree:
`main.py` of 500 bytes with an unsupported 1000-byte `README` gives the
`.py` column share 1 and every other column 0. -/
theorem language_shares_amended_witness :
    (0 < totalBytes c6tree)
    ∧ (∃ row, buildRow c6tree wRelease = .ok row
        ∧ buildRow (c6tree.filter (fun f => countedFile f)) wRelease = .ok row
        ∧ row.shares = SUPPORTED_LANGUAGES.map
            (fun e => (e, pyRound4 ((countedExtBytes c6tree e : ℚ) / (totalBytes c6tree : ℚ))))
        ∧ |((row.shares.map (·.2)).sum : ℚ) - 1|
            ≤ (SUPPORTED_LANGUAGES.length : ℚ) / 20000)
    ∧ buildRow c6tree wRelease
        = Except.ok ⟨10, SUPPORTED_LANGUAGES.map (fun e => (e, if e = ".py" then 1 else 0))⟩ :=
  ⟨by decide, language_shares_amended c6tree wRelease 10 rfl (by decide), by decide⟩

/-- The row the builder produces for a 500-byte `main.py` tree under
`wRelease`. -/
def c7row : MatrixRow :=
  ⟨10, SUPPORTED_LANGUAGES.map (fun e => (e, if e = ".py" then 1 else 0))⟩

/-- C7: every produced row is keyed by the release's effective date - but
only because a row is produced solely when the published date parses.
When `published_at` is JSON `null` the code never falls back to the
created date: `release.get('published_at', ...)` returns `None` (the key
is present), `datetime.fromisoformat(None)` raises `TypeError`, and the
`created_at` default is unreachable, diverging from the spec's
published-else-created keying. -/
theorem row_effective_date_bug (tree : List TreeEntry) (r : Release) (row : MatrixRow)
    (h : buildRow tree r = .ok row) :
    row.date = effDate r
    ∧ buildRow [⟨"blob", "main.py", 500⟩] ⟨"v1", none, 10, false, false⟩
        = Except.error PyError.typeError := by
  refine ⟨(buildRow_date h).2, ?_⟩
  decide

set_option maxRecDepth 10000 in
/-- Witness for the C7 theorem at a concrete produced row. -/
theorem row_effective_date_bug_witness :
    c7row.date = effDate wRelease
    ∧ buildRow [⟨"blob", "main.py", 500⟩] ⟨"v1", none, 10, false, false⟩
        = Except.error PyError.typeError :=
  row_effective_date_bug [⟨"blob", "main.py", 500⟩] wRelease c7row (by decide)

/-- The client state the client-claim witnesses start from. -/
def c10st : ClientState := ⟨"https://api.github.com", 0, 3600, none, none⟩

/-- A raw, non-caching request used by the client-claim witnesses. -/
def c10req : HttpRequest := ⟨"u", [], true, false⟩

/-- A network returning `304 Not Modified` to every request. -/
def c10net304 : HttpRequest → HttpResponse := fun _ => ⟨304, "u", none, Json.null⟩

/-- A network returning `500 Internal Server Error` to every request. -/
def c10net500 : HttpRequest → HttpResponse := fun _ => ⟨500, "u", none, Json.null⟩

/-- C10 amended: `raise_for_status` raises exactly for status codes in
`[400, 600)`; for those `_get` propagates the error and leaves the
client state - rate-limit clock and cache alike - unchanged. -/
theorem error_status_state_unchanged (st : ClientState) (net : HttpRequest → HttpResponse)
    (req : HttpRequest) (tDone : ℚ)
    (h : 400 ≤ (net req).status ∧ (net req).status < 600) :
    client_get st net req tDone = (.error (.http (net req).status), st) := by
  simp only [client_get]
  rw [if_pos h]

/-- A `304 Not Modified` response is not 2xx, yet `_get` does not raise:
it succeeds and advances the rate-limit clock, refuting the claim for
every non-2xx status outside `[400, 600)`. -/
theorem nonsuccess_state_counterexample :
    (c10net304 c10req).status = 304
    ∧ client_get c10st c10net304 c10req 50
        = (Except.ok (GetResult.raw (c10net304 c10req)), { c10st with last_search_time := 50 })
    ∧ ({ c10st with last_search_time := 50 } : ClientState).last_search_time
        ≠ c10st.last_search_time :=
  ⟨rfl, rfl, by decide⟩

/-- Witness for the amended C10 theorem: a 500 response errors out with
the state it started from. -/
theorem error_status_state_unchanged_witness :
    (400 ≤ (c10net500 c10req).status ∧ (c10net500 c10req).status < 600)
    ∧ client_get c10st c10net500 c10req 50
        = (Except.error (PyError.http (c10net500 c10req).status), c10st) :=
  ⟨⟨by decide, by decide⟩,
   error_status_state_unchanged c10st c10net500 c10req 50 ⟨by decide, by decide⟩⟩

/-- The client state after the C9 witness's first successful call. -/
def c9st1 : ClientState := ⟨"https://api.github.com", 5, 3600, none, none⟩

/-- A network answering `200 OK` with an empty body to every request. -/
def c9net : HttpRequest → HttpResponse := fun _ => ⟨200, "u", none, Json.null⟩

/-- The result of the C9 witness's first call. -/
def c9r : GetResult := GetResult.raw ⟨200, "u", none, Json.null⟩

/-- C9: a successful call records its completion time as
`last_search_time`, and any later call that honours the computed
suspension starts at least `3600 / hourly_rate_limit` seconds after the
earlier call started. -/
theorem rate_limit_spacing (st st1 : ClientState) (net : HttpRequest → HttpResponse)
    (req : HttpRequest) (r : GetResult) (treq1 tdone1 now2 treq2 : ℚ)
    (hH : 0 < st.hourly_rate_limit)
    (h1 : client_get st net req tdone1 = (.ok r, st1))
    (ht1 : treq1 ≤ tdone1)
    (h2 : now2 + sleepDuration st1 now2 ≤ treq2) :
    st1.last_search_time = tdone1
    ∧ treq1 + 3600 / (st.hourly_rate_limit : ℚ) ≤ treq2 := by
  have key : st1.last_search_time = tdone1
      ∧ st1.hourly_rate_limit = st.hourly_rate_limit := by
    simp only [client_get] at h1
    split at h1
    · exact absurd h1 (by simp)
    · split at h1
      · simp only [Prod.mk.injEq] at h1
        rw [← h1.2]
        exact ⟨rfl, rfl⟩
      · split at h1
        · simp only [Prod.mk.injEq] at h1
          rw [← h1.2]
          exact ⟨rfl, rfl⟩
        · simp only [Prod.mk.injEq] at h1
          rw [← h1.2]
          exact ⟨rfl, rfl⟩
  refine ⟨key.1, ?_⟩
  have hs : st1.last_search_time + 3600 / (st1.hourly_rate_limit : ℚ) - now2
      ≤ sleepDuration st1 now2 := le_max_right _ _
  rw [key.1, key.2] at hs
  linarith

/-- Witness for the C9 theorem on a concrete pair of calls one hour
apart in budget terms. -/
theorem rate_limit_spacing_witness :
    c9st1.last_search_time = 5
    ∧ (4 : ℚ) + 3600 / (c10st.hourly_rate_limit : ℚ) ≤ 6 :=
  rate_limit_spacing c10st c9st1 c9net c10req c9r 4 5 6 6 (by decide) rfl (by decide)
    (by decide)

/-- A successful response whose `Link` header marks page 42 as the last
page of a one-item-per-page listing. -/
def c2resp : HttpResponse :=
  ⟨200, "u",
   some "<https://api.github.com/repositories/1/releases?per_page=1&page=42>; rel=\"last\"",
   Json.arr []⟩

/-- A network answering every request with `c2resp`. -/
def c2net : HttpRequest → HttpResponse := fun _ => c2resp

/-- C2 (the issue-count operation is modelled from the spec, its code
being absent from the snapshot): each of the four counting operations
requests page 1 of its listing with `per_page=1` in raw mode without
caching (contributors additionally send `anon=true`) and returns the
pagination-boundary last-page number when it is not `-1`, otherwise the
literal length of the single returned page; and the summary upsert
appends exactly one row carrying the five gateway counts. -/
theorem counting_ops_spec (st : ClientState) (net : HttpRequest → HttpResponse)
    (owner repo_name : String) (tDone : ℚ) (s : Store) (repo : RepoData)
    (c : GatewayCounts)
    (hok : ∀ q : HttpRequest, ¬(400 ≤ (net q).status ∧ (net q).status < 600)) :
    (get_release_count st net owner repo_name tDone
        = (count_from_response (net (release_count_request st owner repo_name)),
           { st with last_search_time := tDone })
      ∧ (release_count_request st owner repo_name).params = [("per_page", "1")]
      ∧ (release_count_request st owner repo_name).raw = true
      ∧ (release_count_request st owner repo_name).cache = false)
    ∧ (get_contributor_count st net owner repo_name tDone
        = (count_from_response (net (contributor_count_request st owner repo_name)),
           { st with last_search_time := tDone })
      ∧ (contributor_count_request st owner repo_name).params
          = [("per_page", "1"), ("anon", "true")]
      ∧ (contributor_count_request st owner repo_name).raw = true
      ∧ (contributor_count_request st owner repo_name).cache = false)
    ∧ (get_commit_count st net owner repo_name tDone
        = (count_from_response (net (commit_count_request st owner repo_name)),
           { st with last_search_time := tDone })
      ∧ (commit_count_request st owner repo_name).params = [("per_page", "1")]
      ∧ (commit_count_request st owner repo_name).raw = true
      ∧ (commit_count_request st owner repo_name).cache = false)
    ∧ (get_issue_count st net owner repo_name tDone
        = (count_from_response (net (issue_count_request st owner repo_name)),
           { st with last_search_time := tDone })
      ∧ (issue_count_request st owner repo_name).params = [("per_page", "1")]
      ∧ (issue_count_request st owner repo_name).raw = true
      ∧ (issue_count_request st owner repo_name).cache = false)
    ∧ (∀ (resp : HttpResponse) (n : ℤ), get_last_page_number resp = .ok n → n ≠ -1 →
          count_from_response resp = .ok n)
    ∧ (∀ resp : HttpResponse, get_last_page_number resp = .ok (-1) →
          count_from_response resp = .ok (pyLen resp.body))
    ∧ (append_repository_summary s repo c).repos_summary
        = s.repos_summary ++ [mkSummaryRow repo c]
    ∧ (mkSummaryRow repo c).file_count = c.file_count
    ∧ (mkSummaryRow repo c).release_count = c.release_count
    ∧ (mkSummaryRow repo c).contributor_count = c.contributor_count
    ∧ (mkSummaryRow repo c).commit_count = c.commit_count
    ∧ (mkSummaryRow repo c).issue_count = c.issue_count := by
  have hcg : ∀ q : HttpRequest, q.raw = true →
      client_get st net q tDone
        = (.ok (.raw (net q)), { st with last_search_time := tDone }) := by
    intro q hraw
    simp only [client_get]
    rw [if_neg (hok q), if_pos hraw]
  refine ⟨⟨?_, rfl, rfl, rfl⟩, ⟨?_, rfl, rfl, rfl⟩, ⟨?_, rfl, rfl, rfl⟩,
    ⟨?_, rfl, rfl, rfl⟩, ?_, ?_, rfl, rfl, rfl, rfl, rfl, rfl⟩
  · rw [get_release_count, hcg _ rfl]
  · rw [get_contributor_count, hcg _ rfl]
  · rw [get_commit_count, hcg _ rfl]
  · rw [get_issue_count, hcg _ rfl]
  · intro resp n h hne
    simp only [count_from_response, h]
    rw [if_pos hne]
  · intro resp h
    simp only [count_from_response, h]
    simp

set_option maxRecDepth 10000 in
/-- Witness for the C2 theorem: against a pagination boundary naming
page 42 as the last one-item page, the release count comes back 42. -/
theorem counting_ops_spec_witness :
    (get_release_count c10st c2net "o" "r" 9).1 = Except.ok 42 := by
  have h := counting_ops_spec c10st c2net "o" "r" 9 emptyStore c1repo ⟨1, 2, 3, 4, 5⟩
    (fun q => show ¬(400 ≤ (200 : ℕ) ∧ (200 : ℕ) < 600) by decide)
  rw [h.1.1]
  decide

theorem pySplitList_ne_nil (sep : List Char) :
    ∀ (fuel : ℕ) (l : List Char), pySplitList sep fuel l ≠ [] := by
  intro fuel
  induction fuel with
  | zero =>
    intro l
    cases l with
    | nil => simp [pySplitList]
    | cons c rest => simp [pySplitList]
  | succ fuel ih =>
    intro l
    cases l with
    | nil => simp [pySplitList]
    | cons c rest =>
      simp only [pySplitList]
      split_ifs with h
      · simp
      · rcases hsp : pySplitList sep fuel rest with _ | ⟨h1, t1⟩
        · simp
        · simp

/-- Joining with the separator undoes the split: `sep.join(s.split(sep))
== s`, fuel notwithstanding. -/
theorem joinSep_pySplitList (sep : List Char) :
    ∀ (fuel : ℕ) (l : List Char), joinSep sep (pySplitList sep fuel l) = l := by
  intro fuel
  induction fuel with
  | zero =>
    intro l
    cases l with
    | nil => rfl
    | cons c rest => rfl
  | succ fuel ih =>
    intro l
    cases l with
    | nil => rfl
    | cons c rest =>
      simp only [pySplitList]
      split_ifs with h
      · rcases hsp : pySplitList sep fuel ((c :: rest).drop sep.length) with _ | ⟨h1, t1⟩
        · exact absurd hsp (pySplitList_ne_nil sep fuel _)
        · simp only [joinSep, List.nil_append]
          have hih := ih ((c :: rest).drop sep.length)
          rw [hsp] at hih
          rw [hih]
          exact List.prefix_iff_eq_append.mp (List.isPrefixOf_iff_prefix.mp h.2)
      · rcases hsp : pySplitList sep fuel rest with _ | ⟨h1, t1⟩
        · exact absurd hsp (pySplitList_ne_nil sep fuel rest)
        · show joinSep sep ((c :: h1) :: t1) = c :: rest
          have hih := ih rest
          rw [hsp] at hih
          cases t1 with
          | nil =>
            simp only [joinSep] at hih ⊢
            rw [hih]
          | cons h2 t2 =>
            simp only [joinSep] at hih ⊢
            simp only [List.cons_append, List.append_assoc] at hih ⊢
            rw [hih]

/-- A two-part split pins the string down: `owner/repo` recombines to the
original key. -/
theorem pySplit_two {s a b : String} (h : pySplit s "/" = [a, b]) :
    a ++ "/" ++ b = s := by
  rw [pySplit] at h
  rcases hsp : pySplitList "/".data s.data.length s.data with _ | ⟨x, _ | ⟨y, _ | ⟨z, t⟩⟩⟩ <;>
    rw [hsp] at h <;> simp at h
  have hj := joinSep_pySplitList "/".data s.data.length s.data
  rw [hsp] at hj
  simp only [joinSep] at hj
  obtain ⟨ha, hb⟩ := h
  rw [← ha, ← hb]
  apply String.ext
  rw [String.data_append, String.data_append]
  exact hj

theorem mapM_split_join :
    ∀ (l : List (String × List MatrixRow)) (files : List (String × String × List MatrixRow)),
    (l.mapM (fun p : String × List MatrixRow =>
        match pySplit p.1 "/" with
        | [owner, repo_name] => Except.ok (owner, repo_name, p.2)
        | _ => Except.error PyError.valueError) : Except PyError _) = .ok files →
    files.map (fun x => (x.1 ++ "/" ++ x.2.1, x.2.2)) = l := by
  intro l
  induction l with
  | nil =>
    intro files h
    simp only [List.mapM_nil, pure, Except.pure, Except.ok.injEq] at h
    rw [← h]
    rfl
  | cons p rest ih =>
    intro files h
    rw [List.mapM_cons] at h
    rcases hsp : pySplit p.1 "/" with _ | ⟨o, _ | ⟨r, _ | ⟨z, t⟩⟩⟩ <;> rw [hsp] at h
    · simp [Bind.bind, Except.bind] at h
    · simp [Bind.bind, Except.bind] at h
    · simp only [Bind.bind, Except.bind] at h
      rcases hrest : (rest.mapM (fun p : String × List MatrixRow =>
          match pySplit p.1 "/" with
          | [owner, repo_name] => Except.ok (owner, repo_name, p.2)
          | _ => Except.error PyError.valueError) : Except PyError _) with e | xs
      · rw [hrest] at h
        exact absurd h (by simp)
      · rw [hrest] at h
        simp only [pure, Except.pure, Except.ok.injEq] at h
        rw [← h, List.map_cons, ih xs hrest]
        have hp : (o ++ "/" ++ r, p.2) = p := by
          rw [pySplit_two hsp]
        exact congrArg (fun q => q :: rest) hp
    · simp [Bind.bind, Except.bind] at h

/-- C8: persisting a store and loading the folder back reproduces the
summary table and the language matrices exactly (the matrix keys are
recombined from the owner and repository folder names), rebuilds the
existing-keys index from the summary's name column, and loading an empty
folder yields an empty store. -/
theorem persist_load_roundtrip (s : Store) (f : FolderData) (h : to_csv s = .ok f) :
    (from_csv f).repos_summary = s.repos_summary
    ∧ (from_csv f).language_matrices = s.language_matrices
    ∧ (from_csv f).existing_repositories = (s.repos_summary.map (·.name)).dedup
    ∧ from_csv ⟨[], []⟩ = emptyStore := by
  rw [to_csv] at h
  split at h
  · exact absurd h (by simp)
  · rename_i files hm
    simp only [Except.ok.injEq] at h
    subst h
    have hfiles := mapM_split_join s.language_matrices files hm
    rw [from_csv]
    split_ifs with hemp
    · obtain ⟨h1, h2⟩ := hemp
      simp only [List.isEmpty_iff] at h1 h2
      refine ⟨?_, ?_, ?_, rfl⟩
      · rw [emptyStore, h1]
      · rw [← hfiles, h2, emptyStore]
        rfl
      · rw [emptyStore, h1]
        rfl
    · exact ⟨rfl, hfiles, rfl, rfl⟩

/-- The one-repository store of the C8 witness. -/
def c8s : Store :=
  { repos_summary := [⟨"o/r", 1, 2, 3, 4, 5, 6, 7, 8, 9, 10, ["t"]⟩]
    language_matrices := [("o/r", [⟨5, [(".py", 1)]⟩])]
    existing_repositories := ["o/r"] }

/-- The folder `to_csv` writes for `c8s`. -/
def c8f : FolderData :=
  ⟨[⟨"o/r", 1, 2, 3, 4, 5, 6, 7, 8, 9, 10, ["t"]⟩], [("o", "r", [⟨5, [(".py", 1)]⟩])]⟩

/-- Witness for the C8 theorem at a concrete one-repository store. -/
theorem persist_load_roundtrip_witness :
    to_csv c8s = Except.ok c8f
    ∧ (from_csv c8f).repos_summary = c8s.repos_summary
    ∧ (from_csv c8f).language_matrices = c8s.language_matrices
    ∧ (from_csv c8f).existing_repositories = (c8s.repos_summary.map (·.name)).dedup
    ∧ from_csv ⟨[], []⟩ = emptyStore :=
  ⟨by decide, persist_load_roundtrip c8s c8f (by decide)⟩
